import Mathlib

/-!
# Finite automata: acceptance and subset construction

A shallow embedding of `main.go`: the `Automaton` record, the deterministic walk
`acceptsAFD`, the backtracking search `acceptsAFND` / `acceptStringRecursive`, and the
subset construction `ConvertToDFA` with its local helpers `epsilonClosure` and
`getTransitions`.

Modelling conventions.

* A Go `string` that the program handles is valid UTF-8 (JSON decoding and
  `strings.ToLower` both produce valid UTF-8), so it is a Lean `String`.  `range input`
  walks its characters; `input[0]` / `input[1:]` walk the bytes of its UTF-8 encoding.
* A Go map is an association list read with `mapGet` and written with `mapSet`.
* The `visited` map of `epsilonClosure` is the list of its keys in insertion order;
  `for state := range visited` walks them in an order Go leaves unspecified, so the
  order is a parameter (`order` for one call, `ord k` for the `k`-th call of a run).
* A loop or recursion that Go does not bound takes a fuel argument and answers `none`
  when it runs out; `acceptsAFD` answers `none` when `nextState[0]` is out of range.
-/

namespace Acme

/-- Read a Go map: `m[key]` together with its `ok` flag. -/
def mapGet {β : Type} : List (String × β) → String → Option β
  | [], _ => none
  | (k, v) :: rest, key => if k = key then some v else mapGet rest key

/-- Write a Go map: `m[key] = v`. -/
def mapSet {β : Type} : List (String × β) → String → β → List (String × β)
  | [], key, v => [(key, v)]
  | (k, w) :: rest, key, v => if k = key then (k, v) :: rest else (k, w) :: mapSet rest key v

/-- The `Automaton` struct. -/
structure Automaton where
  States : List String
  Alphabet : List String
  Transitions : List (String × List (String × List String))
  InitialState : String
  FinalStates : List String

/-- The double lookup `a.Transitions[state][symbol]` (a missing inner map reads as empty). -/
def lookupT (t : List (String × List (String × List String))) (state symbol : String) :
    Option (List String) :=
  match mapGet t state with
  | none => none
  | some inner => mapGet inner symbol

/-- The double write `t[state][symbol] = dests`, creating the inner map when it is nil. -/
def setT (t : List (String × List (String × List String))) (state symbol : String)
    (dests : List String) : List (String × List (String × List String)) :=
  match mapGet t state with
  | none => mapSet t state [(symbol, dests)]
  | some inner => mapSet t state (mapSet inner symbol dests)

/-- The helper `contains(slice, element)`. -/
def contains : List String → String → Bool
  | [], _ => false
  | item :: rest, element => if item = element then true else contains rest element

/-- The helper `isFinalState(a, state)`. -/
def isFinalState (a : Automaton) (state : String) : Bool :=
  contains a.FinalStates state

/-- The body of `acceptsAFD`: the walk over the runes of the input, then the scan of
`FinalStates`.  `none` is the run-time failure of `nextState[0]` on an empty slice. -/
def acceptsAFDLoop (a : Automaton) : String → List Char → Option Bool
  | currentState, [] => some (contains a.FinalStates currentState)
  | currentState, symbol :: rest =>
    match lookupT a.Transitions currentState (String.singleton symbol) with
    | none => some false
    | some [] => none
    | some (next :: _) => acceptsAFDLoop a next rest

/-- The method `acceptsAFD`. -/
def acceptsAFD (a : Automaton) (input : String) : Option Bool :=
  acceptsAFDLoop a a.InitialState input.data

/-- UTF-8 encoding of one character, as the bytes a Go string stores. -/
def utf8Bytes (c : Char) : List Nat :=
  let v := c.toNat
  if v < 0x80 then [v]
  else if v < 0x800 then [0xC0 + v / 64, 0x80 + v % 64]
  else if v < 0x10000 then [0xE0 + v / 4096, 0x80 + v / 64 % 64, 0x80 + v % 64]
  else [0xF0 + v / 262144, 0x80 + v / 4096 % 64, 0x80 + v / 64 % 64, 0x80 + v % 64]

/-- The bytes of a Go string. -/
def goBytes (s : String) : List Nat :=
  s.data.flatMap utf8Bytes

/-- The conversion `string(b)` of one byte: the string of the code point `b`. -/
def byteString (b : Nat) : String :=
  String.singleton (Char.ofNat b)

/-- A `for _, state := range dests { if f(state) { return true } }` loop whose body may
fail to return. -/
def anyDest (f : String → Option Bool) : List String → Option Bool
  | [] => some false
  | state :: rest =>
    match f state with
    | none => none
    | some true => some true
    | some false => anyDest f rest

/-- The destinations of an optional map entry (`if nextState, exists := ...; exists`). -/
def dests : Option (List String) → List String
  | none => []
  | some l => l

/-- The function `acceptStringRecursive`, on the bytes of the remaining input.  The fuel
bounds the recursion depth. -/
def acceptStringRecursive (a : Automaton) : Nat → String → List Nat → Option Bool
  | 0, _, _ => none
  | _ + 1, currentState, [] => some (isFinalState a currentState)
  | fuel + 1, currentState, b :: remainingInput =>
    match anyDest (fun state => acceptStringRecursive a fuel state remainingInput)
        (dests (lookupT a.Transitions currentState (byteString b))) with
    | none => none
    | some true => some true
    | some false =>
      match anyDest (fun state => acceptStringRecursive a fuel state (b :: remainingInput))
          (dests (lookupT a.Transitions currentState "lda")) with
      | none => none
      | some true => some true
      | some false => some false

/-- The method `acceptsAFND`. -/
def acceptsAFND (a : Automaton) (fuel : Nat) (input : String) : Option Bool :=
  acceptStringRecursive a fuel a.InitialState (goBytes input)

/-- The statement `visited[state] = true` on the key list of `visited`. -/
def markVisited (visited : List String) (state : String) : List String :=
  if state ∈ visited then visited else visited ++ [state]

/-- The inner loop of `epsilonClosure` over the epsilon destinations of one state:
enqueue and mark every destination not yet visited. -/
def visitAll : List String → List String × List String → List String × List String
  | [], qv => qv
  | nextState :: rest, (queue, visited) =>
    if nextState ∈ visited then visitAll rest (queue, visited)
    else visitAll rest (queue ++ [nextState], visited ++ [nextState])

/-- The `for len(queue) > 0` loop of `epsilonClosure`; the result is the key list of
`visited` when the queue has run empty. -/
def closureLoop (afn : Automaton) : Nat → List String → List String → Option (List String)
  | _, [], visited => some visited
  | 0, _ :: _, _ => none
  | fuel + 1, currentState :: queue, visited =>
    match lookupT afn.Transitions currentState "lda" with
    | some transitions =>
      closureLoop afn fuel (visitAll transitions (queue, visited)).1
        (visitAll transitions (queue, visited)).2
    | none => closureLoop afn fuel queue visited

/-- The closure `epsilonClosure` of `ConvertToDFA`.  `order` is the order in which the
final `range visited` walks the keys. -/
def epsilonClosure (afn : Automaton) (order : List String → List String) (fuel : Nat)
    (states : List String) : Option (List String) :=
  match closureLoop afn fuel states (states.foldl markVisited []) with
  | none => none
  | some visited => some (order visited)

/-- The closure `getTransitions` of `ConvertToDFA`. -/
def getTransitions (afn : Automaton) : List String → String → List String
  | [], _ => []
  | state :: rest, symbol =>
    dests (lookupT afn.Transitions state symbol) ++ getTransitions afn rest symbol

/-- The function `strings.Join(elems, ",")`. -/
def join : List String → String
  | [] => ""
  | [x] => x
  | x :: y :: rest => x ++ "," ++ join (y :: rest)

/-- The variables of `ConvertToDFA` that its main loop updates; `calls` counts the
`range visited` walks done so far. -/
structure ConvState where
  dfa : Automaton
  stateMap : List (String × List String)
  queue : List String
  calls : Nat

/-- The loop over `afn.FinalStates` in the main loop of `ConvertToDFA`. -/
def markFinal (currentState : List String) (currentStateName : String) :
    List String → List String → List String
  | [], dfaFinal => dfaFinal
  | finalState :: rest, dfaFinal =>
    if contains currentState finalState && !contains dfaFinal currentStateName then
      markFinal currentState currentStateName rest (dfaFinal ++ [currentStateName])
    else markFinal currentState currentStateName rest dfaFinal

/-- One pass of the body of the loop over `afn.Alphabet` in `ConvertToDFA`, for the
symbol `symbol` and the source set `currentState` named `currentStateName`. -/
def symbolStep (afn : Automaton) (ord : Nat → List String → List String) (cfuel : Nat)
    (currentStateName : String) (currentState : List String) (symbol : String)
    (st : ConvState) : Option ConvState :=
  match epsilonClosure afn (ord st.calls) cfuel (getTransitions afn currentState symbol) with
  | none => none
  | some nextStates =>
    if nextStates.length = 0 then some { st with calls := st.calls + 1 }
    else
      match mapGet st.stateMap (join nextStates) with
      | some _ =>
        some
          { st with
            dfa := { st.dfa with
              Transitions :=
                setT st.dfa.Transitions currentStateName symbol [join nextStates] }
            calls := st.calls + 1 }
      | none =>
        some
          { dfa := { st.dfa with
              States := st.dfa.States ++ [join nextStates]
              Transitions :=
                setT st.dfa.Transitions currentStateName symbol [join nextStates] }
            stateMap := mapSet st.stateMap (join nextStates) nextStates
            queue := st.queue ++ [join nextStates]
            calls := st.calls + 1 }

/-- The loop over `afn.Alphabet` in the main loop of `ConvertToDFA`. -/
def symbolLoop (afn : Automaton) (ord : Nat → List String → List String) (cfuel : Nat)
    (currentStateName : String) (currentState : List String) :
    List String → ConvState → Option ConvState
  | [], st => some st
  | symbol :: rest, st =>
    match symbolStep afn ord cfuel currentStateName currentState symbol st with
    | none => none
    | some st1 => symbolLoop afn ord cfuel currentStateName currentState rest st1

/-- The head of one pass of the main loop of `ConvertToDFA`: the name is popped from the
queue and the loop over `afn.FinalStates` has run. -/
def popState (afn : Automaton) (st : ConvState) (currentStateName : String)
    (queue : List String) : ConvState :=
  { st with
    queue := queue
    dfa := { st.dfa with
      FinalStates :=
        markFinal (dests (mapGet st.stateMap currentStateName)) currentStateName
          afn.FinalStates st.dfa.FinalStates } }

/-- The main `for len(queue) > 0` loop of `ConvertToDFA`. -/
def mainLoop (afn : Automaton) (ord : Nat → List String → List String) (cfuel : Nat) :
    Nat → ConvState → Option ConvState
  | 0, st =>
    match st.queue with
    | [] => some st
    | _ :: _ => none
  | fuel + 1, st =>
    match st.queue with
    | [] => some st
    | currentStateName :: queue =>
      match symbolLoop afn ord cfuel currentStateName
          (dests (mapGet st.stateMap currentStateName)) afn.Alphabet
          (popState afn st currentStateName queue) with
      | none => none
      | some st1 => mainLoop afn ord cfuel fuel st1

/-- The state in which `ConvertToDFA` enters its main loop, for the initial set
`initialStates`. -/
def initState (afn : Automaton) (initialStates : List String) : ConvState :=
  { dfa :=
      { States := [join initialStates]
        Alphabet := afn.Alphabet
        Transitions := []
        InitialState := join initialStates
        FinalStates := [] }
    stateMap := [(join initialStates, initialStates)]
    queue := [join initialStates]
    calls := 1 }

/-- The run of `ConvertToDFA` up to the end of its main loop, keeping the local
variables. -/
def convertRun (afn : Automaton) (ord : Nat → List String → List String) (fuel : Nat) :
    Option ConvState :=
  match epsilonClosure afn (ord 0) fuel [afn.InitialState] with
  | none => none
  | some initialStates => mainLoop afn ord fuel fuel (initState afn initialStates)

/-- The function `ConvertToDFA`. -/
def ConvertToDFA (afn : Automaton) (ord : Nat → List String → List String) (fuel : Nat) :
    Option Automaton :=
  match convertRun afn ord fuel with
  | none => none
  | some st => some st.dfa

/-! ## Predicates of the specification -/

/-- A walk over the keys of a Go map visits every key exactly once, in some order. -/
def KeyOrder (order : List String → List String) : Prop :=
  ∀ l, (order l).Perm l

/-- Key order of a map walk that follows insertion order. -/
def insertionOrder : Nat → List String → List String := fun _ l => l

/-- Key order of a map walk that follows reverse insertion order. -/
def reverseOrder : Nat → List String → List String := fun _ l => l.reverse

/-- The table is a map: no key occurs twice, at either level. -/
def UniqueKeys (t : List (String × List (String × List String))) : Prop :=
  (t.map Prod.fst).Nodup ∧ ∀ e ∈ t, (e.2.map Prod.fst).Nodup

/-- The data-model invariants of the specification: distinct states, the initial state
and the final states among them, an alphabet without the epsilon marker, and a table
that is a map, with transitions between states, labelled by alphabet symbols or by the
epsilon marker. -/
def WellFormed (a : Automaton) : Prop :=
  a.States.Nodup ∧ a.InitialState ∈ a.States ∧ (∀ f ∈ a.FinalStates, f ∈ a.States) ∧
  "lda" ∉ a.Alphabet ∧ UniqueKeys a.Transitions ∧
  ∀ e ∈ a.Transitions, e.1 ∈ a.States ∧
    ∀ e2 ∈ e.2, (e2.1 ∈ a.Alphabet ∨ e2.1 = "lda") ∧ ∀ d ∈ e2.2, d ∈ a.States

/-- Every `(state, symbol)` entry has exactly one destination and none is keyed by the
epsilon marker. -/
def OneDestination (a : Automaton) : Prop :=
  ∀ e ∈ a.Transitions, ∀ e2 ∈ e.2, e2.2.length = 1 ∧ e2.1 ≠ "lda"

/-- Every present `(state, symbol)` entry has a non-empty destination list. -/
def NonEmptyEntries (a : Automaton) : Prop :=
  ∀ e ∈ a.Transitions, ∀ e2 ∈ e.2, e2.2 ≠ []

/-- The walk in the words of the specification: start at a state and, for each symbol in
order, move to the first destination of the entry `(current state, symbol)`; `none` when
an entry is missing. -/
def specWalk (a : Automaton) : String → List Char → Option String
  | q, [] => some q
  | q, c :: rest =>
    match lookupT a.Transitions q (String.singleton c) with
    | none => none
    | some l =>
      match l.head? with
      | none => none
      | some q1 => specWalk a q1 rest

/-- Every destination that the transition table mentions, in table order. -/
def allDests (t : List (String × List (String × List String))) : List String :=
  t.flatMap (fun e => e.2.flatMap (fun e2 => e2.2))

/-- The state identifiers that the code can meet: the initial state and the destinations
of the table (the `States` field is read by the graph drawing only). -/
def usedStates (afn : Automaton) : List String :=
  afn.InitialState :: allDests afn.Transitions

/-- A transition symbol that is one ASCII character. -/
def isAsciiSymbol (sym : String) : Bool :=
  match sym.data with
  | [c] => decide (c.toNat < 128)
  | _ => false

/-- The automaton has no epsilon transition: no entry is keyed by `lda`. -/
def NoEpsilon (afn : Automaton) : Prop :=
  ∀ e ∈ afn.Transitions, ∀ e2 ∈ e.2, e2.1 ≠ "lda"

/-- No state identifier that the automaton uses contains a comma. -/
def CommaFree (afn : Automaton) : Prop :=
  ∀ q ∈ usedStates afn, ',' ∉ q.data

/-- Every transition symbol is a single ASCII character of the alphabet. -/
def SymbolsOK (afn : Automaton) : Prop :=
  ∀ e ∈ afn.Transitions, ∀ e2 ∈ e.2, isAsciiSymbol e2.1 = true ∧ e2.1 ∈ afn.Alphabet

/-! ## Fuel and invariants for the proofs -/

/-- Every name that `ConvertToDFA` can generate: the joins of the duplicate-free lists
of used states. -/
def allNames (afn : Automaton) : List String :=
  ((usedStates afn).dedup.sublists.flatMap List.permutations).map join

/-- A fuel that covers every loop of one run of `ConvertToDFA`. -/
def enoughFuel (afn : Automaton) : Nat :=
  2 * ((usedStates afn).length * (allDests afn.Transitions).length + 1)
    + (allDests afn.Transitions).length + (allNames afn).length + 2

/-- The `stateMap` of a run holds distinct names, each the join of a duplicate-free
list of used states. -/
def MapOK (afn : Automaton) (st : ConvState) : Prop :=
  (st.stateMap.map Prod.fst).Nodup ∧
  ∀ n L, mapGet st.stateMap n = some L →
    L.Nodup ∧ (∀ x ∈ L, x ∈ usedStates afn) ∧ n = join L

/-- Acceptance of a list of symbols from a state, by following every destination of
every matching entry; the reference semantics of an automaton without epsilon moves. -/
def nfaAccepts (a : Automaton) : String → List String → Bool
  | q, [] => contains a.FinalStates q
  | q, sym :: rest =>
    (dests (lookupT a.Transitions q sym)).any (fun q1 => nfaAccepts a q1 rest)

/-- The entry `(n, sym)` of the new table is right for the set `L` named `n`: absent when
`L` has no `sym`-successor, else the name of a registered set with the members of the
`sym`-successors of `L`. -/
def TransOK (afn : Automaton) (st : ConvState) (L : List String) (n sym : String) : Prop :=
  (getTransitions afn L sym = [] ∧ lookupT st.dfa.Transitions n sym = none) ∨
  ∃ L1, lookupT st.dfa.Transitions n sym = some [join L1] ∧
    mapGet st.stateMap (join L1) = some L1 ∧
    ∀ x, x ∈ L1 ↔ x ∈ getTransitions afn L sym

/-- The invariant of a run of `ConvertToDFA` on an automaton without epsilon moves.
`cur` is the name being processed (if any) and `done` the symbols already handled for
it. -/
structure RunInv (afn : Automaton) (st : ConvState) (cur : Option String)
    (done : List String) : Prop where
  mapOK : MapOK afn st
  nonempty : ∀ n L, mapGet st.stateMap n = some L → L ≠ []
  queueNodup : st.queue.Nodup
  queueKeys : ∀ n ∈ st.queue, mapGet st.stateMap n ≠ none
  curOK : ∀ c, cur = some c → c ∉ st.queue ∧ mapGet st.stateMap c ≠ none
  transOK : ∀ n L, mapGet st.stateMap n = some L → n ∉ st.queue →
    ∀ a ∈ afn.Alphabet, (cur = some n → a ∈ done) → TransOK afn st L n a
  written : ∀ n a l, lookupT st.dfa.Transitions n a = some l →
    mapGet st.stateMap n ≠ none ∧ n ∉ st.queue ∧ (cur = some n → a ∈ done)
  finalOK : ∀ n L, mapGet st.stateMap n = some L → n ∉ st.queue →
    (n ∈ st.dfa.FinalStates ↔ ∃ f ∈ afn.FinalStates, f ∈ L)
  finalKeys : ∀ n ∈ st.dfa.FinalStates, mapGet st.stateMap n ≠ none ∧ n ∉ st.queue
  init : ∃ L0, mapGet st.stateMap st.dfa.InitialState = some L0 ∧
    ∀ x, x ∈ L0 ↔ x = afn.InitialState

/-! ## Example automata -/

/-- The automaton `states=[q0,q1]`, `alphabet=[a]`, `transitions={q0:{a:[q0,q1]}}`,
`initial=q0`, `final=[q1]`. -/
def nfaA : Automaton :=
  { States := ["q0", "q1"], Alphabet := ["a"],
    Transitions := [("q0", [("a", ["q0", "q1"])])],
    InitialState := "q0", FinalStates := ["q1"] }

/-- An automaton with one epsilon transition `q0 --lda--> q1`, `q1` final. -/
def nfaEps : Automaton :=
  { States := ["q0", "q1"], Alphabet := ["a"],
    Transitions := [("q0", [("lda", ["q1"])])],
    InitialState := "q0", FinalStates := ["q1"] }

/-- An automaton that reaches the set `{q1, q2}` twice, in two insertion orders. -/
def nfaSwap : Automaton :=
  { States := ["q0", "q1", "q2"], Alphabet := ["a"],
    Transitions := [("q0", [("a", ["q1", "q2"])]), ("q1", [("a", ["q2"])]),
      ("q2", [("a", ["q1"])])],
    InitialState := "q0", FinalStates := ["q1"] }

/-- An automaton with state identifiers that contain the separator of `join`. -/
def nfaComma : Automaton :=
  { States := ["q0", "a", "a,a", "a,a,a"], Alphabet := ["x", "y"],
    Transitions := [("q0", [("x", ["a,a,a"]), ("y", ["a", "a,a"])])],
    InitialState := "q0", FinalStates := ["a"] }

/-- An automaton whose epsilon transitions form a cycle. -/
def nfaCycle : Automaton :=
  { States := ["q0", "q1"], Alphabet := ["a"],
    Transitions := [("q0", [("lda", ["q1"])]), ("q1", [("lda", ["q0"])])],
    InitialState := "q0", FinalStates := ["q1"] }

theorem mapGet_mem {β : Type} (m : List (String × β)) (k : String) (v : β)
    (h : mapGet m k = some v) : (k, v) ∈ m := by
  induction m with
  | nil => simp [mapGet] at h
  | cons e rest ih =>
    obtain ⟨k1, v1⟩ := e
    by_cases hk : k1 = k
    · simp [mapGet, hk] at h
      simp [hk, h]
    · simp [mapGet, hk] at h
      exact List.mem_cons_of_mem _ (ih h)

theorem mapGet_mapSet {β : Type} (m : List (String × β)) (k k1 : String) (v : β) :
    mapGet (mapSet m k v) k1 = if k = k1 then some v else mapGet m k1 := by
  induction m with
  | nil => simp [mapSet, mapGet]
  | cons e rest ih =>
    obtain ⟨k2, v2⟩ := e
    by_cases hk : k2 = k
    · subst hk
      by_cases h1 : k2 = k1 <;> simp [mapSet, mapGet, h1]
    · by_cases h1 : k2 = k1
      · subst h1
        have hk2 : ¬ k = k2 := fun h => hk h.symm
        simp [mapSet, mapGet, hk, hk2]
      · simp [mapSet, mapGet, hk, h1, ih]

theorem mem_mapSet {β : Type} (m : List (String × β)) (k : String) (v : β) (e : String × β)
    (h : e ∈ mapSet m k v) : e ∈ m ∨ e = (k, v) := by
  induction m with
  | nil => simp [mapSet] at h; exact Or.inr h
  | cons e1 rest ih =>
    obtain ⟨k2, v2⟩ := e1
    by_cases hk : k2 = k
    · simp [mapSet, hk] at h
      rcases h with h | h
      · exact Or.inr h
      · exact Or.inl (List.mem_cons_of_mem _ h)
    · simp [mapSet, hk] at h
      rcases h with h | h
      · exact Or.inl (by simp [h])
      · rcases ih h with h2 | h2
        · exact Or.inl (List.mem_cons_of_mem _ h2)
        · exact Or.inr h2

theorem lookupT_setT (t : List (String × List (String × List String))) (q a q1 a1 : String)
    (d : List String) :
    lookupT (setT t q a d) q1 a1 = if q = q1 ∧ a = a1 then some d else lookupT t q1 a1 := by
  unfold setT lookupT
  cases hq : mapGet t q with
  | none =>
    simp only [mapGet_mapSet]
    by_cases h : q = q1
    · subst h
      by_cases h2 : a = a1 <;> simp [mapGet, h2, hq]
    · simp [h]
  | some inner =>
    simp only [mapGet_mapSet]
    by_cases h : q = q1
    · subst h
      by_cases h2 : a = a1 <;> simp [mapGet_mapSet, h2, hq]
    · simp [h]

theorem contains_iff (l : List String) (x : String) : contains l x = true ↔ x ∈ l := by
  induction l with
  | nil => simp [contains]
  | cons y ys ih =>
    by_cases h : y = x
    · simp [contains, h]
    · simp [contains, h, ih]
      intro h2; exact absurd h2.symm h

theorem anyDest_mono (f g : String → Option Bool) (l : List String) (b : Bool)
    (h : ∀ x c, f x = some c → g x = some c) (hf : anyDest f l = some b) :
    anyDest g l = some b := by
  induction l with
  | nil => simpa [anyDest] using hf
  | cons x xs ih =>
    cases hx : f x with
    | none => simp [anyDest, hx] at hf
    | some c =>
      have hg := h x c hx
      cases c with
      | true => simp [anyDest, hx] at hf; simp [anyDest, hg, hf]
      | false => simp [anyDest, hx] at hf; simp [anyDest, hg, ih hf]

theorem acceptStringRecursive_succ (a : Automaton) :
    ∀ (fuel : Nat) (q : String) (bs : List Nat) (b : Bool),
      acceptStringRecursive a fuel q bs = some b →
      acceptStringRecursive a (fuel + 1) q bs = some b := by
  intro fuel
  induction fuel with
  | zero => intro q bs b h; simp [acceptStringRecursive] at h
  | succ n ih =>
    intro q bs b h
    cases bs with
    | nil => simpa [acceptStringRecursive] using h
    | cons c rest =>
      rw [acceptStringRecursive] at h
      rw [acceptStringRecursive]
      cases h1 : anyDest (fun state => acceptStringRecursive a n state rest)
          (dests (lookupT a.Transitions q (byteString c))) with
      | none => simp [h1] at h
      | some r1 =>
        have g1 := anyDest_mono _ (fun state => acceptStringRecursive a (n + 1) state rest) _ _
          (fun x c hx => ih x rest c hx) h1
        rw [g1]
        cases r1 with
        | true => simpa [h1] using h
        | false =>
          simp only [h1] at h
          cases h2 : anyDest (fun state => acceptStringRecursive a n state (c :: rest))
              (dests (lookupT a.Transitions q "lda")) with
          | none => simp [h2] at h
          | some r2 =>
            have g2 := anyDest_mono _
              (fun state => acceptStringRecursive a (n + 1) state (c :: rest)) _ _
              (fun x c1 hx => ih x (c :: rest) c1 hx) h2
            simp only [g2]
            simpa [h2] using h

theorem acceptStringRecursive_add (a : Automaton) (fuel k : Nat) (q : String) (bs : List Nat)
    (b : Bool) (h : acceptStringRecursive a fuel q bs = some b) :
    acceptStringRecursive a (fuel + k) q bs = some b := by
  induction k with
  | zero => simpa using h
  | succ k ih => exact acceptStringRecursive_succ a (fuel + k) q bs b ih


theorem lookupT_mem (t : List (String × List (String × List String))) (q a : String)
    (l : List String) (h : lookupT t q a = some l) :
    ∃ inner, (q, inner) ∈ t ∧ (a, l) ∈ inner := by
  unfold lookupT at h
  cases hq : mapGet t q with
  | none => simp [hq] at h
  | some inner =>
    simp only [hq] at h
    exact ⟨inner, mapGet_mem t q inner hq, mapGet_mem inner a l h⟩

/-! ## The deterministic walk -/

theorem acceptsAFDLoop_walk (a : Automaton) (h : NonEmptyEntries a) :
    ∀ (cs : List Char) (q : String),
      acceptsAFDLoop a q cs =
        some (match specWalk a q cs with
          | some q1 => contains a.FinalStates q1
          | none => false) := by
  intro cs
  induction cs with
  | nil => intro q; simp [acceptsAFDLoop, specWalk]
  | cons c rest ih =>
    intro q
    rw [acceptsAFDLoop, specWalk]
    cases hl : lookupT a.Transitions q (String.singleton c) with
    | none => simp
    | some l =>
      cases l with
      | nil =>
        obtain ⟨inner, h1, h2⟩ := lookupT_mem _ _ _ _ hl
        exact absurd rfl (h _ h1 _ h2)
      | cons q1 l1 => simpa using ih q1

/-- C3: in an automaton whose present entries all have a non-empty destination list,
`acceptsAFD` returns a verdict, the verdict is `true` exactly when the walk of the
specification finds an entry at every step and ends in a member of `FinalStates`, and it
is `false` when an entry is missing at some step. -/
theorem acceptsAFD_iff_walk (a : Automaton) (h : NonEmptyEntries a) (s : String) :
    (∃ b, acceptsAFD a s = some b) ∧
    (acceptsAFD a s = some true ↔
      ∃ q, specWalk a a.InitialState s.data = some q ∧ q ∈ a.FinalStates) ∧
    (specWalk a a.InitialState s.data = none → acceptsAFD a s = some false) := by
  unfold acceptsAFD
  rw [acceptsAFDLoop_walk a h]
  cases hw : specWalk a a.InitialState s.data with
  | none => simp
  | some q => simp [contains_iff]

theorem nfaA_nonEmptyEntries : NonEmptyEntries nfaA := by
  unfold NonEmptyEntries nfaA; decide

theorem acceptsAFD_iff_walk_witness :
    NonEmptyEntries nfaA ∧
    ((∃ b, acceptsAFD nfaA "a" = some b) ∧
    (acceptsAFD nfaA "a" = some true ↔
      ∃ q, specWalk nfaA nfaA.InitialState "a".data = some q ∧ q ∈ nfaA.FinalStates) ∧
    (specWalk nfaA nfaA.InitialState "a".data = none → acceptsAFD nfaA "a" = some false)) :=
  ⟨nfaA_nonEmptyEntries, acceptsAFD_iff_walk nfaA nfaA_nonEmptyEntries "a"⟩

/-- C4, as the code behaves: on the automaton `nfaA` the search returns `true` on input
`a` and also on input `aa` (path `q0 → q0 → q1`), at every recursion budget from 3 on. -/
theorem acceptsAFND_nfaA (n : Nat) :
    acceptsAFND nfaA (n + 3) "a" = some true ∧ acceptsAFND nfaA (n + 3) "aa" = some true := by
  constructor
  · rw [Nat.add_comm]; exact acceptStringRecursive_add nfaA 3 n _ _ _ (by decide)
  · rw [Nat.add_comm]; exact acceptStringRecursive_add nfaA 3 n _ _ _ (by decide)

/-- C4 as stated fails: the search does not return `false` on input `aa`. -/
theorem acceptsAFND_nfaA_aa_not_false :
    ¬ (acceptsAFND nfaA 3 "a" = some true ∧ acceptsAFND nfaA 3 "aa" = some false) := by
  decide

/-- C5: on the empty input the search answers `isFinalState` of the initial state,
whatever the epsilon entries.  The automaton `nfaEps` satisfies the data-model invariants
and has the epsilon transition `q0 --lda--> q1` from its initial state to the final
state `q1`, and the search on the empty input returns `false` at every recursion
budget. -/
theorem acceptsAFND_nfaEps_empty (n : Nat) :
    (∀ a : Automaton, acceptsAFND a (n + 1) "" = some (isFinalState a a.InitialState)) ∧
    WellFormed nfaEps ∧ nfaEps.InitialState = "q0" ∧
    lookupT nfaEps.Transitions "q0" "lda" = some ["q1"] ∧ isFinalState nfaEps "q1" = true ∧
    acceptsAFND nfaEps (n + 1) "" = some false := by
  refine ⟨fun a => rfl, ?_, rfl, by decide, by decide, ?_⟩
  · unfold WellFormed UniqueKeys nfaEps; decide
  · have h : acceptsAFND nfaEps 1 "" = some false := by decide
    rw [Nat.add_comm]; exact acceptStringRecursive_add nfaEps 1 n _ _ _ h

/-! ## The closure helper -/

theorem foldl_markVisited (S : List String) :
    ∀ acc : List String, acc.Nodup →
      (S.foldl markVisited acc).Nodup ∧
      (∀ x, x ∈ S.foldl markVisited acc ↔ x ∈ acc ∨ x ∈ S) ∧
      (S.foldl markVisited acc).length ≤ acc.length + S.length := by
  induction S with
  | nil => intro acc h; simp [h]
  | cons s rest ih =>
    intro acc h
    simp only [List.foldl_cons]
    by_cases hs : s ∈ acc
    · have e : markVisited acc s = acc := by simp [markVisited, hs]
      rw [e]
      obtain ⟨a, b, c⟩ := ih acc h
      refine ⟨a, ?_, ?_⟩
      · intro x; rw [b]; simp only [List.mem_cons]
        constructor
        · rintro (h1 | h1)
          · exact Or.inl h1
          · exact Or.inr (Or.inr h1)
        · rintro (h1 | h1 | h1)
          · exact Or.inl h1
          · exact Or.inl (h1 ▸ hs)
          · exact Or.inr h1
      · simp only [List.length_cons]; omega
    · have e : markVisited acc s = acc ++ [s] := by simp [markVisited, hs]
      rw [e]
      have hn : (acc ++ [s]).Nodup := by
        rw [List.nodup_append]
        refine ⟨h, List.nodup_singleton s, ?_⟩
        intro x hx hx2
        simp only [List.mem_singleton] at hx2
        exact hs (hx2 ▸ hx)
      obtain ⟨a, b, c⟩ := ih (acc ++ [s]) hn
      refine ⟨a, ?_, ?_⟩
      · intro x; rw [b]; simp only [List.mem_cons, List.mem_append, List.mem_singleton, List.not_mem_nil, or_false]
        tauto
      · simp only [List.length_cons, List.length_append, List.length_singleton, List.length_nil] at c ⊢; omega

theorem visitAll_spec (ts : List String) :
    ∀ q v : List String,
      (∀ x, x ∈ (visitAll ts (q, v)).2 ↔ x ∈ v ∨ x ∈ ts) ∧
      (∀ x, x ∈ (visitAll ts (q, v)).1 ↔ x ∈ q ∨ (x ∈ ts ∧ x ∉ v)) ∧
      (v.Nodup → (visitAll ts (q, v)).2.Nodup) ∧
      (visitAll ts (q, v)).1.length + v.length = q.length + (visitAll ts (q, v)).2.length := by
  induction ts with
  | nil => intro q v; simp [visitAll]
  | cons t rest ih =>
    intro q v
    by_cases ht : t ∈ v
    · have e : visitAll (t :: rest) (q, v) = visitAll rest (q, v) := by simp [visitAll, ht]
      rw [e]
      obtain ⟨a, b, c, d⟩ := ih q v
      refine ⟨?_, ?_, c, d⟩
      · intro x; rw [a]; simp only [List.mem_cons]
        constructor
        · rintro (h1 | h1)
          · exact Or.inl h1
          · exact Or.inr (Or.inr h1)
        · rintro (h1 | h1 | h1)
          · exact Or.inl h1
          · exact Or.inl (h1 ▸ ht)
          · exact Or.inr h1
      · intro x; rw [b]; simp only [List.mem_cons]
        constructor
        · rintro (h1 | ⟨h1, h2⟩)
          · exact Or.inl h1
          · exact Or.inr ⟨Or.inr h1, h2⟩
        · rintro (h1 | ⟨h1 | h1, h2⟩)
          · exact Or.inl h1
          · exact absurd (h1 ▸ ht) h2
          · exact Or.inr ⟨h1, h2⟩
    · have e : visitAll (t :: rest) (q, v) = visitAll rest (q ++ [t], v ++ [t]) := by
        simp [visitAll, ht]
      rw [e]
      obtain ⟨a, b, c, d⟩ := ih (q ++ [t]) (v ++ [t])
      refine ⟨?_, ?_, ?_, ?_⟩
      · intro x; rw [a]; simp only [List.mem_cons, List.mem_append, List.mem_singleton, List.not_mem_nil, or_false]
        tauto
      · intro x; rw [b]; simp only [List.mem_cons, List.mem_append, List.mem_singleton, List.not_mem_nil, or_false]
        constructor
        · rintro (h1 | ⟨h1, h2⟩)
          · rcases h1 with h1 | h1
            · exact Or.inl h1
            · exact Or.inr ⟨Or.inl h1, h1 ▸ ht⟩
          · exact Or.inr ⟨Or.inr h1, fun h3 => h2 (Or.inl h3)⟩
        · rintro (h1 | ⟨h1 | h1, h2⟩)
          · exact Or.inl (Or.inl h1)
          · exact Or.inl (Or.inr h1)
          · by_cases hx : x = t
            · exact Or.inl (Or.inr hx)
            · exact Or.inr ⟨h1, fun h3 => h3.elim h2 hx⟩
      · intro hv
        apply c
        rw [List.nodup_append]
        refine ⟨hv, List.nodup_singleton t, ?_⟩
        intro x hx hx2
        simp only [List.mem_singleton] at hx2
        exact ht (hx2 ▸ hx)
      · simp only [List.length_cons, List.length_append, List.length_singleton, List.length_nil] at d ⊢; omega

/-- Invariant rule for the queue loop of `epsilonClosure`. -/
theorem closureLoop_invariant (afn : Automaton) (P : List String → List String → Prop)
    (hnone : ∀ c q v, lookupT afn.Transitions c "lda" = none → P (c :: q) v → P q v)
    (hsome : ∀ c q v ts, lookupT afn.Transitions c "lda" = some ts → P (c :: q) v →
      P (visitAll ts (q, v)).1 (visitAll ts (q, v)).2) :
    ∀ (fuel : Nat) (q v r : List String),
      closureLoop afn fuel q v = some r → P q v → P [] r := by
  intro fuel
  induction fuel with
  | zero =>
    intro q v r h hp
    cases q with
    | nil => simp [closureLoop] at h; exact h ▸ hp
    | cons c q => simp [closureLoop] at h
  | succ n ih =>
    intro q v r h hp
    cases q with
    | nil => simp [closureLoop] at h; exact h ▸ hp
    | cons c q =>
      rw [closureLoop] at h
      cases hl : lookupT afn.Transitions c "lda" with
      | none =>
        simp only [hl] at h
        exact ih q v r h (hnone c q v hl hp)
      | some ts =>
        simp only [hl] at h
        exact ih _ _ r h (hsome c q v ts hl hp)

theorem lookupT_subset_allDests (t : List (String × List (String × List String)))
    (q a : String) (l : List String) (h : lookupT t q a = some l) : l ⊆ allDests t := by
  obtain ⟨inner, h1, h2⟩ := lookupT_mem t q a l h
  intro x hx
  unfold allDests
  simp only [List.mem_flatMap]
  exact ⟨(q, inner), h1, (a, l), h2, hx⟩

theorem closureLoop_terminates (afn : Automaton) (W : List String)
    (hW : allDests afn.Transitions ⊆ W) :
    ∀ (fuel : Nat) (q v : List String), v.Nodup → v ⊆ W →
      q.length + W.length ≤ fuel + v.length →
      ∃ r, closureLoop afn fuel q v = some r := by
  intro fuel
  induction fuel with
  | zero =>
    intro q v hv hs hf
    cases q with
    | nil => exact ⟨v, by simp [closureLoop]⟩
    | cons c q =>
      have := (List.subperm_of_subset hv hs).length_le
      simp only [List.length_cons] at hf
      omega
  | succ n ih =>
    intro q v hv hs hf
    cases q with
    | nil => exact ⟨v, by simp [closureLoop]⟩
    | cons c q =>
      rw [closureLoop]
      cases hl : lookupT afn.Transitions c "lda" with
      | none =>
        simp only
        apply ih q v hv hs
        simp only [List.length_cons] at hf
        omega
      | some ts =>
        simp only
        obtain ⟨a, b, c1, d⟩ := visitAll_spec ts q v
        apply ih _ _ (c1 hv)
        · intro x hx
          rcases (a x).1 hx with h1 | h1
          · exact hs h1
          · exact hW (lookupT_subset_allDests _ _ _ _ hl h1)
        · simp only [List.length_cons] at hf
          omega


/-- What the queue loop of `epsilonClosure` keeps true, for a start list `S` and a set `P`
that contains `S` and is closed under epsilon moves. -/
theorem closureLoop_spec (afn : Automaton) (S : List String) (P : String → Prop)
    (hP : ∀ x l, P x → lookupT afn.Transitions x "lda" = some l → ∀ y ∈ l, P y)
    (fuel : Nat) (q v r : List String) (h : closureLoop afn fuel q v = some r)
    (hq : ∀ x ∈ q, P x) (hv : ∀ x ∈ v, P x) (hS : ∀ x ∈ S, x ∈ v) (hn : v.Nodup)
    (hc : ∀ x ∈ v, x ∈ q ∨ ∀ l, lookupT afn.Transitions x "lda" = some l → ∀ y ∈ l, y ∈ v) :
    (∀ x ∈ r, P x) ∧ (∀ x ∈ S, x ∈ r) ∧ r.Nodup ∧
    (∀ x ∈ r, ∀ l, lookupT afn.Transitions x "lda" = some l → ∀ y ∈ l, y ∈ r) := by
  have key := closureLoop_invariant afn
    (fun q v => (∀ x ∈ q, P x) ∧ (∀ x ∈ v, P x) ∧ (∀ x ∈ S, x ∈ v) ∧ v.Nodup ∧
      (∀ x ∈ v, x ∈ q ∨ ∀ l, lookupT afn.Transitions x "lda" = some l → ∀ y ∈ l, y ∈ v))
    ?_ ?_ fuel q v r h ⟨hq, hv, hS, hn, hc⟩
  · obtain ⟨_, k2, k3, k4, k5⟩ := key
    refine ⟨k2, k3, k4, ?_⟩
    intro x hx l hl y hy
    rcases k5 x hx with h1 | h1
    · simp at h1
    · exact h1 l hl y hy
  · rintro c q v hl ⟨i1, i2, i3, i4, i5⟩
    refine ⟨fun x hx => i1 x (List.mem_cons_of_mem _ hx), i2, i3, i4, ?_⟩
    intro x hx
    rcases i5 x hx with h1 | h1
    · rcases List.mem_cons.1 h1 with h2 | h2
      · right; intro l hl2; rw [h2, hl] at hl2; simp at hl2
      · exact Or.inl h2
    · exact Or.inr h1
  · rintro c q v ts hl ⟨i1, i2, i3, i4, i5⟩
    obtain ⟨a, b, c1, _⟩ := visitAll_spec ts q v
    have hts : ∀ y ∈ ts, P y := hP c ts (i1 c (List.mem_cons_self _ _)) hl
    refine ⟨?_, ?_, ?_, c1 i4, ?_⟩
    · intro x hx
      rcases (b x).1 hx with h1 | ⟨h1, _⟩
      · exact i1 x (List.mem_cons_of_mem _ h1)
      · exact hts x h1
    · intro x hx
      rcases (a x).1 hx with h1 | h1
      · exact i2 x h1
      · exact hts x h1
    · intro x hx; exact (a x).2 (Or.inl (i3 x hx))
    · intro x hx
      rcases (a x).1 hx with h1 | h1
      · rcases i5 x h1 with h2 | h2
        · rcases List.mem_cons.1 h2 with h3 | h3
          · right; intro l hl2 y hy
            rw [h3, hl] at hl2
            simp only [Option.some.injEq] at hl2
            exact (a y).2 (Or.inr (hl2 ▸ hy))
          · exact Or.inl ((b x).2 (Or.inl h3))
        · right; intro l hl2 y hy
          exact (a y).2 (Or.inl (h2 l hl2 y hy))
      · by_cases hxv : x ∈ v
        · rcases i5 x hxv with h2 | h2
          · rcases List.mem_cons.1 h2 with h3 | h3
            · right; intro l hl2 y hy
              rw [h3, hl] at hl2
              simp only [Option.some.injEq] at hl2
              exact (a y).2 (Or.inr (hl2 ▸ hy))
            · exact Or.inl ((b x).2 (Or.inl h3))
          · right; intro l hl2 y hy
            exact (a y).2 (Or.inl (h2 l hl2 y hy))
        · exact Or.inl ((b x).2 (Or.inr ⟨h1, hxv⟩))

/-- The closure helper returns once the fuel covers twice the start list and every
destination of the table. -/
theorem epsilonClosure_returns (afn : Automaton) (order : List String → List String)
    (fuel : Nat) (S : List String)
    (hf : 2 * S.length + (allDests afn.Transitions).length ≤ fuel) :
    ∃ c, epsilonClosure afn order fuel S = some c := by
  obtain ⟨hn, hm, hl⟩ := foldl_markVisited S [] List.nodup_nil
  have : ∃ r, closureLoop afn fuel S (S.foldl markVisited []) = some r := by
    apply closureLoop_terminates afn (S ++ allDests afn.Transitions)
      (List.subset_append_right _ _) fuel S _ hn
    · intro x hx
      rcases (hm x).1 hx with h1 | h1
      · simp at h1
      · exact List.mem_append_left _ h1
    · simp only [List.length_append, List.length_nil] at hl ⊢
      have : (S.foldl markVisited []).length ≤ S.length + (allDests afn.Transitions).length :=
        by omega
      have h2 := (List.subperm_of_subset hn (fun x hx => by
        rcases (hm x).1 hx with h1 | h1
        · simp at h1
        · exact h1 : S.foldl markVisited [] ⊆ S)).length_le
      omega
  obtain ⟨r, hr⟩ := this
  exact ⟨order r, by simp [epsilonClosure, hr]⟩

/-- What the closure helper returns: a duplicate-free list that contains the start list,
is closed under epsilon moves, and lies inside every such set. -/
theorem epsilonClosure_spec (afn : Automaton) (order : List String → List String)
    (ho : KeyOrder order) (fuel : Nat) (S c : List String)
    (h : epsilonClosure afn order fuel S = some c) :
    c.Nodup ∧ (∀ x ∈ S, x ∈ c) ∧
    (∀ x ∈ c, ∀ l, lookupT afn.Transitions x "lda" = some l → ∀ y ∈ l, y ∈ c) ∧
    (∀ P : String → Prop, (∀ x ∈ S, P x) →
      (∀ x l, P x → lookupT afn.Transitions x "lda" = some l → ∀ y ∈ l, P y) →
      ∀ x ∈ c, P x) := by
  unfold epsilonClosure at h
  cases hr : closureLoop afn fuel S (S.foldl markVisited []) with
  | none => simp [hr] at h
  | some r =>
    simp only [hr, Option.some.injEq] at h
    subst h
    obtain ⟨hn, hm, _⟩ := foldl_markVisited S [] List.nodup_nil
    have hmem : ∀ x, x ∈ order r ↔ x ∈ r := fun x => (ho r).mem_iff
    have hv0 : ∀ x ∈ S.foldl markVisited [], x ∈ S := fun x hx => by
      rcases (hm x).1 hx with h1 | h1
      · simp at h1
      · exact h1
    have base := fun (P : String → Prop)
        (hP : ∀ x l, P x → lookupT afn.Transitions x "lda" = some l → ∀ y ∈ l, P y)
        (hS : ∀ x ∈ S, P x) =>
      closureLoop_spec afn S P hP fuel S _ r hr hS (fun x hx => hS x (hv0 x hx))
        (fun x hx => (hm x).2 (Or.inr hx)) hn (fun x hx => Or.inl (hv0 x hx))
    obtain ⟨_, b2, b3, b4⟩ := base (fun _ => True) (fun _ _ _ _ _ _ => trivial)
      (fun _ _ => trivial)
    refine ⟨(ho r).nodup_iff.2 b3, fun x hx => (hmem x).2 (b2 x hx), ?_, ?_⟩
    · intro x hx l hl y hy
      exact (hmem y).2 (b4 x ((hmem x).1 hx) l hl y hy)
    · intro P hS hP x hx
      exact (base P hP hS).1 x ((hmem x).1 hx)

theorem epsilonClosure_length (afn : Automaton) (order : List String → List String)
    (ho : KeyOrder order) (fuel : Nat) (S c : List String)
    (h : epsilonClosure afn order fuel S = some c) :
    c.length ≤ S.length + (allDests afn.Transitions).length ∧
    ∀ x ∈ c, x ∈ S ∨ x ∈ allDests afn.Transitions := by
  obtain ⟨hn, _, _, hmin⟩ := epsilonClosure_spec afn order ho fuel S c h
  have hsub : ∀ x ∈ c, x ∈ S ++ allDests afn.Transitions := by
    apply hmin (fun x => x ∈ S ++ allDests afn.Transitions)
    · intro x hx; exact List.mem_append_left _ hx
    · intro x l _ hl y hy
      exact List.mem_append_right _ (lookupT_subset_allDests _ _ _ _ hl hy)
  constructor
  · have := (List.subperm_of_subset hn hsub).length_le
    simpa using this
  · intro x hx; exact List.mem_append.1 (hsub x hx)

/-- C6: `epsilonClosure` is a closure operator on sets of states.  Whatever the automaton
(cyclic epsilon transitions included), the start list `S` and the key orders of the two
map walks, there is a fuel from which on the helper returns, every member of `S` is in
the result, and a second application to the result returns a list with exactly the same
members. -/
theorem epsilonClosure_closure_operator (afn : Automaton)
    (order1 order2 : List String → List String) (h1 : KeyOrder order1) (h2 : KeyOrder order2)
    (S : List String) :
    ∃ n, ∀ fuel, n ≤ fuel →
      ∃ c1 c2, epsilonClosure afn order1 fuel S = some c1 ∧ (∀ x ∈ S, x ∈ c1) ∧
        epsilonClosure afn order2 fuel c1 = some c2 ∧ ∀ x, x ∈ c2 ↔ x ∈ c1 := by
  refine ⟨2 * S.length + 3 * (allDests afn.Transitions).length, fun fuel hf => ?_⟩
  obtain ⟨c1, hc1⟩ := epsilonClosure_returns afn order1 fuel S (by omega)
  obtain ⟨_, e2, e3, _⟩ := epsilonClosure_spec afn order1 h1 fuel S c1 hc1
  have hlen := (epsilonClosure_length afn order1 h1 fuel S c1 hc1).1
  obtain ⟨c2, hc2⟩ := epsilonClosure_returns afn order2 fuel c1 (by omega)
  obtain ⟨_, f2, _, f4⟩ := epsilonClosure_spec afn order2 h2 fuel c1 c2 hc2
  refine ⟨c1, c2, hc1, e2, hc2, fun x => ⟨?_, f2 x⟩⟩
  exact f4 (fun x => x ∈ c1) (fun x hx => hx) (fun x l hx hl y hy => e3 x hx l hl y hy) x


theorem insertionOrder_keyOrder (k : Nat) : KeyOrder (insertionOrder k) :=
  fun l => List.Perm.refl l

theorem reverseOrder_keyOrder (k : Nat) : KeyOrder (reverseOrder k) :=
  fun l => List.reverse_perm l

theorem epsilonClosure_closure_operator_witness :
    KeyOrder (insertionOrder 0) ∧ KeyOrder (reverseOrder 0) ∧
    ∃ n, ∀ fuel, n ≤ fuel →
      ∃ c1 c2, epsilonClosure nfaCycle (insertionOrder 0) fuel ["q0"] = some c1 ∧
        (∀ x ∈ ["q0"], x ∈ c1) ∧
        epsilonClosure nfaCycle (reverseOrder 0) fuel c1 = some c2 ∧ ∀ x, x ∈ c2 ↔ x ∈ c1 :=
  ⟨insertionOrder_keyOrder 0, reverseOrder_keyOrder 0,
    epsilonClosure_closure_operator nfaCycle _ _ (insertionOrder_keyOrder 0)
      (reverseOrder_keyOrder 0) ["q0"]⟩


/-! ## The loops of the subset construction -/

theorem mapGet_none_iff {β : Type} (m : List (String × β)) (k : String) :
    mapGet m k = none ↔ k ∉ m.map Prod.fst := by
  induction m with
  | nil => simp [mapGet]
  | cons e rest ih =>
    obtain ⟨k1, v1⟩ := e
    by_cases hk : k1 = k
    · simp [mapGet, hk]
    · have hk2 : ¬ k = k1 := fun h => hk h.symm
      simp only [mapGet, hk, if_false, ih, List.map_cons, List.mem_cons, hk2, false_or]

theorem keys_mapSet_new {β : Type} (m : List (String × β)) (k : String) (v : β)
    (h : mapGet m k = none) : (mapSet m k v).map Prod.fst = m.map Prod.fst ++ [k] := by
  induction m with
  | nil => simp [mapSet]
  | cons e rest ih =>
    obtain ⟨k1, v1⟩ := e
    by_cases hk : k1 = k
    · simp [mapGet, hk] at h
    · simp only [mapGet, hk, if_false] at h
      simp [mapSet, hk, ih h]

/-- What one pass of the alphabet loop does, case by case. -/
theorem symbolStep_cases (afn : Automaton) (ord : Nat → List String → List String)
    (cfuel : Nat) (name : String) (cur : List String) (sym : String) (st st1 : ConvState)
    (h : symbolStep afn ord cfuel name cur sym st = some st1) :
    ∃ next, epsilonClosure afn (ord st.calls) cfuel (getTransitions afn cur sym) = some next ∧
      ((next = [] ∧ st1 = { st with calls := st.calls + 1 }) ∨
       (next ≠ [] ∧ (∃ L, mapGet st.stateMap (join next) = some L) ∧
          st1 = { st with
            dfa := { st.dfa with
              Transitions := setT st.dfa.Transitions name sym [join next] },
            calls := st.calls + 1 }) ∨
       (next ≠ [] ∧ mapGet st.stateMap (join next) = none ∧
          st1 = { dfa := { st.dfa with
                           States := st.dfa.States ++ [join next],
                           Transitions := setT st.dfa.Transitions name sym [join next] },
                  stateMap := mapSet st.stateMap (join next) next,
                  queue := st.queue ++ [join next],
                  calls := st.calls + 1 })) := by
  unfold symbolStep at h
  cases hc : epsilonClosure afn (ord st.calls) cfuel (getTransitions afn cur sym) with
  | none => simp [hc] at h
  | some next =>
    refine ⟨next, rfl, ?_⟩
    simp only [hc] at h
    by_cases hl : next.length = 0
    · simp only [hl, if_true, Option.some.injEq] at h
      exact Or.inl ⟨List.length_eq_zero.1 hl, h.symm⟩
    · have hne : next ≠ [] := fun e => hl (by simp [e])
      simp only [hl, if_false] at h
      cases hm : mapGet st.stateMap (join next) with
      | none =>
        simp only [hm, Option.some.injEq] at h
        exact Or.inr (Or.inr ⟨hne, rfl, h.symm⟩)
      | some L =>
        simp only [hm, Option.some.injEq] at h
        exact Or.inr (Or.inl ⟨hne, ⟨L, rfl⟩, h.symm⟩)

/-- Invariant rule for the alphabet loop. -/
theorem symbolLoop_invariant (afn : Automaton) (ord : Nat → List String → List String)
    (cfuel : Nat) (name : String) (cur : List String) (all : List String)
    (P : List String → ConvState → Prop)
    (hstep : ∀ done sym st st1, sym ∈ all → P done st →
      symbolStep afn ord cfuel name cur sym st = some st1 → P (done ++ [sym]) st1) :
    ∀ (syms done : List String) (st st1 : ConvState), (∀ s ∈ syms, s ∈ all) →
      symbolLoop afn ord cfuel name cur syms st = some st1 → P done st →
      P (done ++ syms) st1 := by
  intro syms
  induction syms with
  | nil => intro done st st1 _ h hp; simp [symbolLoop] at h; simpa [← h] using hp
  | cons s rest ih =>
    intro done st st1 hall h hp
    rw [symbolLoop] at h
    cases hs : symbolStep afn ord cfuel name cur s st with
    | none => simp [hs] at h
    | some st2 =>
      simp only [hs] at h
      have := ih (done ++ [s]) st2 st1 (fun x hx => hall x (List.mem_cons_of_mem _ hx)) h
        (hstep done s st st2 (hall s (List.mem_cons_self _ _)) hp hs)
      simpa using this

/-- Invariant rule for the main loop. -/
theorem mainLoop_invariant (afn : Automaton) (ord : Nat → List String → List String)
    (cfuel : Nat) (P : ConvState → Prop)
    (hstep : ∀ st name queue st1, st.queue = name :: queue → P st →
      symbolLoop afn ord cfuel name (dests (mapGet st.stateMap name)) afn.Alphabet
        (popState afn st name queue) = some st1 → P st1) :
    ∀ (fuel : Nat) (st r : ConvState),
      mainLoop afn ord cfuel fuel st = some r → P st → P r ∧ r.queue = [] := by
  intro fuel
  induction fuel with
  | zero =>
    intro st r h hp
    rw [mainLoop] at h
    cases hq : st.queue with
    | nil => simp [hq] at h; subst h; exact ⟨hp, hq⟩
    | cons n q => simp [hq] at h
  | succ k ih =>
    intro st r h hp
    rw [mainLoop] at h
    cases hq : st.queue with
    | nil => simp [hq] at h; subst h; exact ⟨hp, hq⟩
    | cons n q =>
      simp only [hq] at h
      cases hs : symbolLoop afn ord cfuel n (dests (mapGet st.stateMap n)) afn.Alphabet
          (popState afn st n q) with
      | none => simp [hs] at h
      | some st1 =>
        simp only [hs] at h
        exact ih st1 r h (hstep st n q st1 hq hp hs)


/-! ## Termination of the subset construction -/

theorem dests_subset_allDests (afn : Automaton) (q sym : String) :
    ∀ x ∈ dests (lookupT afn.Transitions q sym), x ∈ allDests afn.Transitions := by
  intro x hx
  cases hl : lookupT afn.Transitions q sym with
  | none => simp [hl, dests] at hx
  | some l =>
    simp only [hl, dests] at hx
    exact lookupT_subset_allDests _ _ _ _ hl hx

theorem dests_length_le (afn : Automaton) (q sym : String) :
    (dests (lookupT afn.Transitions q sym)).length ≤ (allDests afn.Transitions).length := by
  cases hl : lookupT afn.Transitions q sym with
  | none => simp [dests]
  | some l =>
    simp only [dests]
    obtain ⟨inner, h1, h2⟩ := lookupT_mem _ _ _ _ hl
    have e1 : l.length ≤ (inner.flatMap (fun e2 => e2.2)).length :=
      (List.sublist_flatten_of_mem (List.mem_map_of_mem (fun e2 => e2.2) h2)).length_le
    have e2 : (inner.flatMap (fun e2 => e2.2)).length ≤ (allDests afn.Transitions).length :=
      (List.sublist_flatten_of_mem
        (List.mem_map_of_mem (fun e => e.2.flatMap (fun e2 => e2.2)) h1)).length_le
    exact le_trans e1 e2

theorem getTransitions_subset (afn : Automaton) (sym : String) :
    ∀ (L : List String), ∀ x ∈ getTransitions afn L sym, x ∈ allDests afn.Transitions := by
  intro L
  induction L with
  | nil => intro x hx; simp [getTransitions] at hx
  | cons q rest ih =>
    intro x hx
    simp only [getTransitions, List.mem_append] at hx
    rcases hx with h | h
    · exact dests_subset_allDests afn q sym x h
    · exact ih x h

theorem mem_getTransitions (afn : Automaton) (sym : String) (x : String) :
    ∀ (L : List String),
      x ∈ getTransitions afn L sym ↔ ∃ q ∈ L, x ∈ dests (lookupT afn.Transitions q sym) := by
  intro L
  induction L with
  | nil => simp [getTransitions]
  | cons q rest ih => simp [getTransitions, ih]

theorem getTransitions_length (afn : Automaton) (sym : String) :
    ∀ (L : List String),
      (getTransitions afn L sym).length ≤ L.length * (allDests afn.Transitions).length := by
  intro L
  induction L with
  | nil => simp [getTransitions]
  | cons q rest ih =>
    simp only [getTransitions, List.length_append, List.length_cons]
    have := dests_length_le afn q sym
    rw [Nat.succ_mul]
    omega

theorem join_mem_allNames (afn : Automaton) (L : List String) (hn : L.Nodup)
    (hs : ∀ x ∈ L, x ∈ usedStates afn) : join L ∈ allNames afn := by
  unfold allNames
  apply List.mem_map_of_mem
  have hsub : L ⊆ (usedStates afn).dedup := fun x hx => List.mem_dedup.2 (hs x hx)
  obtain ⟨l, hl1, hl2⟩ := List.subperm_of_subset hn hsub
  simp only [List.mem_flatMap, List.mem_sublists]
  exact ⟨l, hl2, List.mem_permutations.2 hl1.symm⟩

theorem keys_length_le (afn : Automaton) (st : ConvState) (h : MapOK afn st) :
    (st.stateMap.map Prod.fst).length ≤ (allNames afn).length := by
  apply (List.subperm_of_subset h.1 _).length_le
  intro n hn
  cases hg : mapGet st.stateMap n with
  | none => exact absurd hn ((mapGet_none_iff _ _).1 hg)
  | some L =>
    obtain ⟨a, b, c⟩ := h.2 n L hg
    rw [c]
    exact join_mem_allNames afn L a b

/-- One pass of the alphabet loop returns, keeps the state map well formed, and adds as
many names to the queue as keys to the state map. -/
theorem symbolStep_total (afn : Automaton) (ord : Nat → List String → List String)
    (ho : ∀ k, KeyOrder (ord k)) (cfuel : Nat) (name : String) (cur : List String)
    (sym : String) (st : ConvState) (hm : MapOK afn st)
    (hf : 2 * (getTransitions afn cur sym).length + (allDests afn.Transitions).length ≤ cfuel) :
    ∃ st1, symbolStep afn ord cfuel name cur sym st = some st1 ∧ MapOK afn st1 ∧
      st1.queue.length + (st.stateMap.map Prod.fst).length =
        st.queue.length + (st1.stateMap.map Prod.fst).length := by
  obtain ⟨next, hc⟩ := epsilonClosure_returns afn (ord st.calls) cfuel
    (getTransitions afn cur sym) hf
  obtain ⟨hn, _, _, _⟩ := epsilonClosure_spec afn _ (ho _) cfuel _ next hc
  have hsub := (epsilonClosure_length afn _ (ho _) cfuel _ next hc).2
  have hu : ∀ x ∈ next, x ∈ usedStates afn := by
    intro x hx
    rcases hsub x hx with h | h
    · exact List.mem_cons_of_mem _ (getTransitions_subset afn sym cur x h)
    · exact List.mem_cons_of_mem _ h
  unfold symbolStep
  simp only [hc]
  by_cases hl : next.length = 0
  · simp only [hl, if_true]
    exact ⟨_, rfl, hm, rfl⟩
  · simp only [hl, if_false]
    cases hg : mapGet st.stateMap (join next) with
    | some L => exact ⟨_, rfl, hm, rfl⟩
    | none =>
      refine ⟨_, rfl, ⟨?_, ?_⟩, ?_⟩
      · simp only [keys_mapSet_new _ _ _ hg]
        rw [List.nodup_append]
        refine ⟨hm.1, List.nodup_singleton _, ?_⟩
        intro x hx hx2
        simp only [List.mem_singleton] at hx2
        exact (mapGet_none_iff _ _).1 hg (hx2 ▸ hx)
      · intro n L hnl
        simp only [mapGet_mapSet] at hnl
        by_cases he : join next = n
        · simp only [he, if_true, Option.some.injEq] at hnl
          subst hnl
          exact ⟨hn, hu, he.symm⟩
        · simp only [he, if_false] at hnl
          exact hm.2 n L hnl
      · simp only [keys_mapSet_new _ _ _ hg, List.length_append, List.length_singleton]
        omega

theorem symbolLoop_total (afn : Automaton) (ord : Nat → List String → List String)
    (ho : ∀ k, KeyOrder (ord k)) (cfuel : Nat) (name : String) (cur : List String)
    (hf : 2 * (cur.length * (allDests afn.Transitions).length)
      + (allDests afn.Transitions).length ≤ cfuel) :
    ∀ (syms : List String) (st : ConvState), MapOK afn st →
      ∃ st1, symbolLoop afn ord cfuel name cur syms st = some st1 ∧ MapOK afn st1 ∧
        st1.queue.length + (st.stateMap.map Prod.fst).length =
          st.queue.length + (st1.stateMap.map Prod.fst).length := by
  intro syms
  induction syms with
  | nil => intro st hm; exact ⟨st, rfl, hm, rfl⟩
  | cons s rest ih =>
    intro st hm
    have hlen := getTransitions_length afn s cur
    obtain ⟨st1, h1, h2, h3⟩ := symbolStep_total afn ord ho cfuel name cur s st hm (by omega)
    obtain ⟨st2, g1, g2, g3⟩ := ih st1 h2
    refine ⟨st2, ?_, g2, by omega⟩
    rw [symbolLoop]
    simp only [h1, g1]

theorem mainLoop_total (afn : Automaton) (ord : Nat → List String → List String)
    (ho : ∀ k, KeyOrder (ord k)) (cfuel : Nat)
    (hf : 2 * ((usedStates afn).length * (allDests afn.Transitions).length)
      + (allDests afn.Transitions).length ≤ cfuel) :
    ∀ (fuel : Nat) (st : ConvState), MapOK afn st →
      st.queue.length + (allNames afn).length ≤ fuel + (st.stateMap.map Prod.fst).length →
      ∃ r, mainLoop afn ord cfuel fuel st = some r := by
  intro fuel
  induction fuel with
  | zero =>
    intro st hm hq
    have := keys_length_le afn st hm
    rw [mainLoop]
    cases hqq : st.queue with
    | nil => exact ⟨st, rfl⟩
    | cons n q => simp only [hqq, List.length_cons] at hq; omega
  | succ k ih =>
    intro st hm hq
    rw [mainLoop]
    cases hqq : st.queue with
    | nil => exact ⟨st, rfl⟩
    | cons n q =>
      simp only
      have hcur : (dests (mapGet st.stateMap n)).length ≤ (usedStates afn).length := by
        cases hg : mapGet st.stateMap n with
        | none => simp [dests]
        | some L =>
          obtain ⟨a, b, _⟩ := hm.2 n L hg
          exact (List.subperm_of_subset a b).length_le
      have hmul := Nat.mul_le_mul_right (allDests afn.Transitions).length hcur
      obtain ⟨st1, h1, h2, h3⟩ := symbolLoop_total afn ord ho cfuel n
        (dests (mapGet st.stateMap n)) (by omega) afn.Alphabet (popState afn st n q)
        (by exact hm)
      simp only [h1]
      apply ih st1 h2
      simp only [popState] at h3
      simp only [hqq, List.length_cons] at hq
      omega


theorem initState_mapOK (afn : Automaton) (order : List String → List String)
    (ho : KeyOrder order) (fuel : Nat) (L0 : List String)
    (h : epsilonClosure afn order fuel [afn.InitialState] = some L0) :
    MapOK afn (initState afn L0) := by
  obtain ⟨hn, _, _, _⟩ := epsilonClosure_spec afn _ ho fuel _ L0 h
  have hsub := (epsilonClosure_length afn _ ho fuel _ L0 h).2
  refine ⟨by simp [initState], ?_⟩
  intro n L hnl
  simp only [initState, mapGet] at hnl
  by_cases he : join L0 = n
  · simp only [he, if_true, Option.some.injEq] at hnl
    subst hnl
    refine ⟨hn, ?_, he.symm⟩
    intro x hx
    rcases hsub x hx with h1 | h1
    · simp only [List.mem_singleton] at h1
      rw [h1]; exact List.mem_cons_self _ _
    · exact List.mem_cons_of_mem _ h1
  · simp [he] at hnl

/-- The run of `ConvertToDFA` returns once the fuel reaches `enoughFuel`. -/
theorem convertRun_total (afn : Automaton) (ord : Nat → List String → List String)
    (ho : ∀ k, KeyOrder (ord k)) (fuel : Nat) (hf : enoughFuel afn ≤ fuel) :
    ∃ r, convertRun afn ord fuel = some r := by
  unfold enoughFuel at hf
  obtain ⟨L0, h0⟩ := epsilonClosure_returns afn (ord 0) fuel [afn.InitialState]
    (by simp only [List.length_singleton]; omega)
  unfold convertRun
  simp only [h0]
  apply mainLoop_total afn ord ho fuel (by omega) fuel _ (initState_mapOK afn _ (ho 0) fuel L0 h0)
  simp only [initState, List.length_singleton, List.map_cons, List.map_nil]
  omega

/-- Invariant rule for a whole run of `ConvertToDFA`. -/
theorem convertRun_invariant (afn : Automaton) (ord : Nat → List String → List String)
    (fuel : Nat) (P : ConvState → Prop)
    (hinit : ∀ L0, epsilonClosure afn (ord 0) fuel [afn.InitialState] = some L0 →
      P (initState afn L0))
    (hstep : ∀ st name queue st1, st.queue = name :: queue → P st →
      symbolLoop afn ord fuel name (dests (mapGet st.stateMap name)) afn.Alphabet
        (popState afn st name queue) = some st1 → P st1)
    (r : ConvState) (h : convertRun afn ord fuel = some r) : P r ∧ r.queue = [] := by
  unfold convertRun at h
  cases h0 : epsilonClosure afn (ord 0) fuel [afn.InitialState] with
  | none => simp [h0] at h
  | some L0 =>
    simp only [h0] at h
    exact mainLoop_invariant afn ord fuel P hstep fuel _ r h (hinit L0 h0)

theorem mem_setT (t : List (String × List (String × List String))) (q a : String)
    (d : List String) (e : String × List (String × List String)) (e2 : String × List String)
    (he : e ∈ setT t q a d) (he2 : e2 ∈ e.2) :
    e2 = (a, d) ∨ ∃ e1 ∈ t, e2 ∈ e1.2 := by
  unfold setT at he
  cases hq : mapGet t q with
  | none =>
    simp only [hq] at he
    rcases mem_mapSet _ _ _ _ he with h | h
    · exact Or.inr ⟨e, h, he2⟩
    · subst h
      simp only [List.mem_singleton] at he2
      exact Or.inl he2
  | some inner =>
    simp only [hq] at he
    rcases mem_mapSet _ _ _ _ he with h | h
    · exact Or.inr ⟨e, h, he2⟩
    · subst h
      rcases mem_mapSet _ _ _ _ he2 with h2 | h2
      · exact Or.inr ⟨(q, inner), mapGet_mem _ _ _ hq, h2⟩
      · exact Or.inl h2


theorem keys_mapSet_old {β : Type} (m : List (String × β)) (k : String) (v w : β)
    (h : mapGet m k = some w) : (mapSet m k v).map Prod.fst = m.map Prod.fst := by
  induction m with
  | nil => simp [mapGet] at h
  | cons e rest ih =>
    obtain ⟨k1, v1⟩ := e
    by_cases hk : k1 = k
    · simp [mapSet, hk]
    · simp only [mapGet, hk, if_false] at h
      simp [mapSet, hk, ih h]

theorem keys_mapSet_nodup {β : Type} (m : List (String × β)) (k : String) (v : β)
    (h : (m.map Prod.fst).Nodup) : ((mapSet m k v).map Prod.fst).Nodup := by
  cases hg : mapGet m k with
  | none =>
    rw [keys_mapSet_new m k v hg, List.nodup_append]
    refine ⟨h, List.nodup_singleton _, ?_⟩
    intro x hx hx2
    simp only [List.mem_singleton] at hx2
    exact (mapGet_none_iff _ _).1 hg (hx2 ▸ hx)
  | some w => rw [keys_mapSet_old m k v w hg]; exact h

theorem uniqueKeys_setT (t : List (String × List (String × List String))) (q a : String)
    (d : List String) (h : UniqueKeys t) : UniqueKeys (setT t q a d) := by
  unfold setT
  cases hq : mapGet t q with
  | none =>
    refine ⟨keys_mapSet_nodup t q _ h.1, ?_⟩
    intro e he
    rcases mem_mapSet _ _ _ _ he with h1 | h1
    · exact h.2 e h1
    · subst h1; simp
  | some inner =>
    refine ⟨keys_mapSet_nodup t q _ h.1, ?_⟩
    intro e he
    rcases mem_mapSet _ _ _ _ he with h1 | h1
    · exact h.2 e h1
    · subst h1
      exact keys_mapSet_nodup inner a d (h.2 _ (mapGet_mem _ _ _ hq))

/-- The new table of a run is a map: no key occurs twice, at either level. -/
theorem convertRun_uniqueKeys (afn : Automaton) (ord : Nat → List String → List String)
    (fuel : Nat) (r : ConvState) (h : convertRun afn ord fuel = some r) :
    UniqueKeys r.dfa.Transitions := by
  refine (convertRun_invariant afn ord fuel (fun st => UniqueKeys st.dfa.Transitions)
    ?_ ?_ r h).1
  · intro L0 _
    exact ⟨by simp [initState], by simp [initState]⟩
  · intro st name queue st1 _ hp hs
    refine symbolLoop_invariant afn ord fuel name (dests (mapGet st.stateMap name))
      afn.Alphabet (fun _ s => UniqueKeys s.dfa.Transitions)
      ?_ afn.Alphabet [] (popState afn st name queue) st1 (fun _ hx => hx) hs hp
    intro done sym s0 s1 _ hP hstep
    obtain ⟨next, _, hcase⟩ := symbolStep_cases _ _ _ _ _ _ _ _ hstep
    rcases hcase with ⟨_, rfl⟩ | ⟨_, _, rfl⟩ | ⟨_, _, rfl⟩
    · exact hP
    · exact uniqueKeys_setT _ _ _ _ hP
    · exact uniqueKeys_setT _ _ _ _ hP

/-- Every entry that a run writes into the new table has one destination and is keyed
by a symbol of the alphabet. -/
theorem convertRun_entries (afn : Automaton) (ord : Nat → List String → List String)
    (fuel : Nat) (r : ConvState) (h : convertRun afn ord fuel = some r) :
    ∀ e ∈ r.dfa.Transitions, ∀ e2 ∈ e.2, e2.2.length = 1 ∧ e2.1 ∈ afn.Alphabet := by
  refine (convertRun_invariant afn ord fuel
    (fun st => ∀ e ∈ st.dfa.Transitions, ∀ e2 ∈ e.2, e2.2.length = 1 ∧ e2.1 ∈ afn.Alphabet)
    ?_ ?_ r h).1
  · intro L0 _ e he
    simp [initState] at he
  · intro st name queue st1 _ hp hs
    have key := symbolLoop_invariant afn ord fuel name (dests (mapGet st.stateMap name))
      afn.Alphabet
      (fun _ st => ∀ e ∈ st.dfa.Transitions, ∀ e2 ∈ e.2,
        e2.2.length = 1 ∧ e2.1 ∈ afn.Alphabet)
      ?_ afn.Alphabet [] (popState afn st name queue) st1 (fun _ hx => hx) hs hp
    · exact key
    · intro done sym s0 s1 hsym hP hstep e he e2 he2
      obtain ⟨next, _, hcase⟩ := symbolStep_cases _ _ _ _ _ _ _ _ hstep
      rcases hcase with ⟨_, rfl⟩ | ⟨_, _, rfl⟩ | ⟨_, _, rfl⟩
      · exact hP e he e2 he2
      · rcases mem_setT _ _ _ _ e e2 he he2 with h1 | ⟨e1, h1, h2⟩
        · subst h1; exact ⟨rfl, hsym⟩
        · exact hP e1 h1 e2 h2
      · rcases mem_setT _ _ _ _ e e2 he he2 with h1 | ⟨e1, h1, h2⟩
        · subst h1; exact ⟨rfl, hsym⟩
        · exact hP e1 h1 e2 h2

/-- C2: for an automaton whose alphabet does not contain the epsilon marker, and
whatever the key orders of the map walks, `ConvertToDFA` returns from some fuel on, and
in the automaton it returns every `(state, symbol)` entry of `Transitions` has exactly
one destination and none is keyed by `lda`; the table is a map, so each pair has at most
one destination. -/
theorem ConvertToDFA_one_destination (afn : Automaton)
    (ord : Nat → List String → List String) (ho : ∀ k, KeyOrder (ord k))
    (hlda : "lda" ∉ afn.Alphabet) :
    ∃ n, ∀ fuel, n ≤ fuel →
      ∃ d, ConvertToDFA afn ord fuel = some d ∧ OneDestination d ∧
        UniqueKeys d.Transitions := by
  refine ⟨enoughFuel afn, fun fuel hf => ?_⟩
  obtain ⟨r, hr⟩ := convertRun_total afn ord ho fuel hf
  refine ⟨r.dfa, by simp [ConvertToDFA, hr], ?_, convertRun_uniqueKeys afn ord fuel r hr⟩
  intro e he e2 he2
  obtain ⟨h1, h2⟩ := convertRun_entries afn ord fuel r hr e he e2 he2
  exact ⟨h1, fun h3 => hlda (h3 ▸ h2)⟩

theorem ConvertToDFA_one_destination_witness :
    (∀ k, KeyOrder (insertionOrder k)) ∧ "lda" ∉ nfaA.Alphabet ∧
    ∃ n, ∀ fuel, n ≤ fuel →
      ∃ d, ConvertToDFA nfaA insertionOrder fuel = some d ∧ OneDestination d ∧
        UniqueKeys d.Transitions :=
  ⟨insertionOrder_keyOrder, by decide,
    ConvertToDFA_one_destination nfaA insertionOrder insertionOrder_keyOrder (by decide)⟩

/-! ## Names of state sets -/

theorem split_at_comma : ∀ (a b s t : List Char), ',' ∉ a → ',' ∉ b →
    a ++ ',' :: s = b ++ ',' :: t → a = b ∧ s = t := by
  intro a
  induction a with
  | nil =>
    intro b s t _ hb h
    cases b with
    | nil => simpa using h
    | cons c b1 =>
      simp only [List.nil_append, List.cons_append, List.cons.injEq] at h
      exact absurd (by simp [← h.1]) hb
  | cons c a1 ih =>
    intro b s t ha hb h
    cases b with
    | nil =>
      simp only [List.nil_append, List.cons_append, List.cons.injEq] at h
      exact absurd (by simp [h.1]) ha
    | cons c1 b1 =>
      simp only [List.cons_append, List.cons.injEq] at h
      obtain ⟨e1, e2⟩ := ih b1 s t (fun hh => ha (List.mem_cons_of_mem _ hh))
        (fun hh => hb (List.mem_cons_of_mem _ hh)) h.2
      exact ⟨by rw [h.1, e1], e2⟩

theorem join_cons_cons_data (x y : String) (rest : List String) :
    (join (x :: y :: rest)).data = x.data ++ ',' :: (join (y :: rest)).data := by
  simp [join, String.data_append]

/-- On non-empty lists of comma-free identifiers `join` is injective. -/
theorem join_injective : ∀ (L1 L2 : List String), L1 ≠ [] → L2 ≠ [] →
    (∀ x ∈ L1, ',' ∉ x.data) → (∀ x ∈ L2, ',' ∉ x.data) → join L1 = join L2 → L1 = L2 := by
  intro L1
  induction L1 with
  | nil => intro L2 h; exact absurd rfl h
  | cons x r1 ih =>
    intro L2 _ h2 c1 c2 hj
    cases L2 with
    | nil => exact absurd rfl h2
    | cons y r2 =>
      have hx := c1 x (List.mem_cons_self _ _)
      have hy := c2 y (List.mem_cons_self _ _)
      cases r1 with
      | nil =>
        cases r2 with
        | nil => simp only [join] at hj; rw [hj]
        | cons y1 r3 =>
          have hd := congrArg String.data hj
          rw [join_cons_cons_data] at hd
          simp only [join] at hd
          exact absurd (by rw [hd]; simp) hx
      | cons x1 r3 =>
        cases r2 with
        | nil =>
          have hd := congrArg String.data hj
          rw [join_cons_cons_data] at hd
          simp only [join] at hd
          exact absurd (by rw [← hd]; simp) hy
        | cons y1 r4 =>
          have hd := congrArg String.data hj
          rw [join_cons_cons_data, join_cons_cons_data] at hd
          obtain ⟨e1, e2⟩ := split_at_comma _ _ _ _ hx hy hd
          have e3 : join (x1 :: r3) = join (y1 :: r4) := String.ext e2
          have e4 := ih (y1 :: r4) (by simp) (by simp)
            (fun z hz => c1 z (List.mem_cons_of_mem _ hz))
            (fun z hz => c2 z (List.mem_cons_of_mem _ hz)) e3
          rw [String.ext e1, e4]

/-! ## Automata without epsilon moves -/

theorem lookupT_lda_none (afn : Automaton) (h : NoEpsilon afn) (q : String) :
    lookupT afn.Transitions q "lda" = none := by
  cases hl : lookupT afn.Transitions q "lda" with
  | none => rfl
  | some l =>
    obtain ⟨inner, h1, h2⟩ := lookupT_mem _ _ _ _ hl
    exact absurd rfl (h _ h1 _ h2)

/-- Without epsilon moves the closure helper returns the members of its argument. -/
theorem epsilonClosure_noEpsilon (afn : Automaton) (h : NoEpsilon afn)
    (order : List String → List String) (ho : KeyOrder order) (fuel : Nat)
    (S c : List String) (hc : epsilonClosure afn order fuel S = some c) :
    c.Nodup ∧ ∀ x, x ∈ c ↔ x ∈ S := by
  obtain ⟨hn, h2, _, h4⟩ := epsilonClosure_spec afn order ho fuel S c hc
  refine ⟨hn, fun x => ⟨?_, h2 x⟩⟩
  apply h4 (fun x => x ∈ S) (fun x hx => hx)
  intro x l _ hl
  rw [lookupT_lda_none afn h x] at hl
  simp at hl

theorem markFinal_mem (cur : List String) (name : String) :
    ∀ (finals acc : List String) (x : String),
      x ∈ markFinal cur name finals acc ↔
        x ∈ acc ∨ (x = name ∧ ∃ f ∈ finals, f ∈ cur) := by
  intro finals
  induction finals with
  | nil => intro acc x; simp [markFinal]
  | cons f rest ih =>
    intro acc x
    rw [markFinal]
    by_cases hc : (contains cur f && !contains acc name) = true
    · rw [if_pos hc, ih]
      simp only [Bool.and_eq_true, contains_iff, Bool.not_eq_true', ] at hc
      simp only [List.mem_append, List.mem_singleton, List.mem_cons, List.not_mem_nil,
        or_false]
      constructor
      · rintro ((h1 | h1) | ⟨h1, f1, h2, h3⟩)
        · exact Or.inl h1
        · exact Or.inr ⟨h1, f, Or.inl rfl, hc.1⟩
        · exact Or.inr ⟨h1, f1, Or.inr h2, h3⟩
      · rintro (h1 | ⟨h1, f1, h2 | h2, h3⟩)
        · exact Or.inl (Or.inl h1)
        · exact Or.inl (Or.inr h1)
        · exact Or.inr ⟨h1, f1, h2, h3⟩
    · rw [if_neg hc, ih]
      simp only [List.mem_cons]
      constructor
      · rintro (h1 | ⟨h1, f1, h2, h3⟩)
        · exact Or.inl h1
        · exact Or.inr ⟨h1, f1, Or.inr h2, h3⟩
      · rintro (h1 | ⟨h1, f1, h2 | h2, h3⟩)
        · exact Or.inl h1
        · subst h2
          simp only [Bool.and_eq_true, contains_iff, Bool.not_eq_true', not_and,
            Bool.not_eq_false] at hc
          left
          have := hc h3
          rw [h1]
          exact this
        · exact Or.inr ⟨h1, f1, h2, h3⟩


/-! ## The invariant of the subset construction -/

theorem runInv_init (afn : Automaton) (h : NoEpsilon afn)
    (order : List String → List String) (ho : KeyOrder order) (fuel : Nat) (L0 : List String)
    (h0 : epsilonClosure afn order fuel [afn.InitialState] = some L0) :
    RunInv afn (initState afn L0) none [] := by
  obtain ⟨_, hmem⟩ := epsilonClosure_noEpsilon afn h order ho fuel _ L0 h0
  have hkey : ∀ n L, mapGet (initState afn L0).stateMap n = some L → n = join L0 ∧ L = L0 := by
    intro n L hnl
    simp only [initState, mapGet] at hnl
    by_cases he : join L0 = n
    · simp only [he, if_true, Option.some.injEq] at hnl
      exact ⟨he.symm, hnl.symm⟩
    · simp [he] at hnl
  have hq : (initState afn L0).queue = [join L0] := rfl
  refine ⟨initState_mapOK afn order ho fuel L0 h0, ?_, ?_, ?_, ?_, ?_, ?_, ?_, ?_, ?_⟩
  · intro n L hnl hL
    obtain ⟨_, e⟩ := hkey n L hnl
    have : afn.InitialState ∈ L0 := (hmem _).2 (by simp)
    rw [← e, hL] at this
    simp at this
  · simp [initState]
  · intro n hn
    simp only [initState, List.mem_singleton] at hn
    simp [initState, mapGet, hn]
  · intro c hc; simp at hc
  · intro n L hnl hn
    exact absurd (by rw [hq, (hkey n L hnl).1]; simp) hn
  · intro n a l hl
    simp [initState, lookupT, mapGet] at hl
  · intro n L hnl hn
    exact absurd (by rw [hq, (hkey n L hnl).1]; simp) hn
  · intro n hn
    simp [initState] at hn
  · refine ⟨L0, by simp [initState, mapGet], ?_⟩
    intro x; rw [hmem]; simp

theorem runInv_pop (afn : Automaton) (st : ConvState) (name : String) (queue : List String)
    (hq : st.queue = name :: queue) (hi : RunInv afn st none []) :
    ∃ cur, mapGet st.stateMap name = some cur ∧
      RunInv afn (popState afn st name queue) (some name) [] := by
  have hnd := hi.queueNodup
  rw [hq] at hnd
  obtain ⟨hname, hnd2⟩ := List.nodup_cons.1 hnd
  have hk := hi.queueKeys name (by rw [hq]; exact List.mem_cons_self _ _)
  cases hg : mapGet st.stateMap name with
  | none => exact absurd hg hk
  | some cur =>
    refine ⟨cur, rfl, ?_⟩
    have hnotq : ∀ n, n ∉ queue → n ≠ name → n ∉ st.queue := by
      intro n h1 h2 h3
      rw [hq] at h3
      rcases List.mem_cons.1 h3 with h4 | h4
      · exact h2 h4
      · exact h1 h4
    refine ⟨hi.mapOK, hi.nonempty, hnd2, ?_, ?_, ?_, ?_, ?_, ?_, hi.init⟩
    · intro n hn
      exact hi.queueKeys n (by rw [hq]; exact List.mem_cons_of_mem _ hn)
    · intro c hc
      simp only [Option.some.injEq] at hc
      subst hc
      exact ⟨hname, hk⟩
    · intro n L hnl hn a ha hcond
      by_cases he : n = name
      · have := hcond (by rw [he])
        simp at this
      · exact hi.transOK n L hnl (hnotq n hn he) a ha (fun h => by simp at h)
    · intro n a l hl
      obtain ⟨w1, w2, _⟩ := hi.written n a l hl
      refine ⟨w1, ?_, ?_⟩
      · intro h3; exact w2 (by rw [hq]; exact List.mem_cons_of_mem _ h3)
      · intro h3
        simp only [Option.some.injEq] at h3
        exact absurd (by rw [hq, ← h3]; exact List.mem_cons_self _ _) w2
    · intro n L hnl hn
      show n ∈ markFinal (dests (mapGet st.stateMap name)) name afn.FinalStates
        st.dfa.FinalStates ↔ _
      rw [markFinal_mem, hg]
      simp only [dests]
      by_cases he : n = name
      · subst he
        have e1 : L = cur := by
          have : mapGet st.stateMap n = some L := hnl
          rw [hg] at this
          exact (Option.some.inj this).symm
        subst e1
        constructor
        · rintro (h1 | ⟨_, h2⟩)
          · exact absurd (by rw [hq]; exact List.mem_cons_self _ _)
              (hi.finalKeys n h1).2
          · exact h2
        · intro h2; exact Or.inr ⟨rfl, h2⟩
      · rw [← hi.finalOK n L hnl (hnotq n hn he)]
        constructor
        · rintro (h1 | ⟨h1, _⟩)
          · exact h1
          · exact absurd h1 he
        · intro h1; exact Or.inl h1
    · intro n hn
      have hn2 : n ∈ markFinal (dests (mapGet st.stateMap name)) name afn.FinalStates
        st.dfa.FinalStates := hn
      rw [markFinal_mem] at hn2
      rcases hn2 with h1 | ⟨h1, _⟩
      · obtain ⟨f1, f2⟩ := hi.finalKeys n h1
        exact ⟨f1, fun h3 => f2 (by rw [hq]; exact List.mem_cons_of_mem _ h3)⟩
      · rw [h1]; exact ⟨hk, hname⟩

theorem runInv_finish (afn : Automaton) (st : ConvState) (name : String)
    (hi : RunInv afn st (some name) afn.Alphabet) : RunInv afn st none [] := by
  refine ⟨hi.mapOK, hi.nonempty, hi.queueNodup, hi.queueKeys, ?_, ?_, ?_, hi.finalOK,
    hi.finalKeys, hi.init⟩
  · intro c hc; simp at hc
  · intro n L hnl hn a ha _
    exact hi.transOK n L hnl hn a ha (fun _ => ha)
  · intro n a l hl
    obtain ⟨w1, w2, _⟩ := hi.written n a l hl
    exact ⟨w1, w2, fun h => by simp at h⟩


theorem ne_none_of_eq_some {β : Type} {o : Option β} {v : β} (h : o = some v) : o ≠ none := by
  rw [h]; simp

/-- The invariant survives a pass of the alphabet loop that writes the entry
`(name, sym) ↦ [join next]` and may register new names at the end of the queue. -/
theorem runInv_update (afn : Automaton) (st st1 : ConvState) (name sym : String)
    (cur done next : List String)
    (hi : RunInv afn st (some name) done) (hcur : mapGet st.stateMap name = some cur)
    (hmem : ∀ x, x ∈ next ↔ x ∈ getTransitions afn cur sym)
    (hMap : MapOK afn st1) (hne : ∀ n L, mapGet st1.stateMap n = some L → L ≠ [])
    (hmono : ∀ k v, mapGet st.stateMap k = some v → mapGet st1.stateMap k = some v)
    (hnext : mapGet st1.stateMap (join next) = some next)
    (hold : ∀ k v, mapGet st1.stateMap k = some v → k ∉ st1.queue →
      mapGet st.stateMap k = some v)
    (hqN : st1.queue.Nodup) (hqK : ∀ n ∈ st1.queue, mapGet st1.stateMap n ≠ none)
    (hqsub : ∀ n, n ∈ st.queue → n ∈ st1.queue)
    (hqnew : ∀ n, n ∈ st1.queue → n ∉ st.queue → mapGet st.stateMap n = none)
    (hT : ∀ n a, lookupT st1.dfa.Transitions n a =
      if name = n ∧ sym = a then some [join next] else lookupT st.dfa.Transitions n a)
    (hF : st1.dfa.FinalStates = st.dfa.FinalStates)
    (hI : st1.dfa.InitialState = st.dfa.InitialState) :
    RunInv afn st1 (some name) (done ++ [sym]) := by
  have hnameq : name ∉ st1.queue := by
    intro h1
    have := hqnew name h1 (hi.curOK name rfl).1
    rw [hcur] at this; simp at this
  have hkeep : ∀ n, mapGet st.stateMap n ≠ none → n ∉ st.queue → n ∉ st1.queue := by
    intro n h1 h2 h3
    exact h1 (hqnew n h3 h2)
  refine ⟨hMap, hne, hqN, hqK, ?_, ?_, ?_, ?_, ?_, ?_⟩
  · intro c hc
    simp only [Option.some.injEq] at hc
    subst hc
    exact ⟨hnameq, ne_none_of_eq_some (hmono _ _ hcur)⟩
  · intro n L hnl hn a ha hcond
    have hnl0 := hold n L hnl hn
    have hn0 : n ∉ st.queue := fun h1 => hn (hqsub n h1)
    by_cases he : name = n ∧ sym = a
    · obtain ⟨e1, e2⟩ := he
      subst e1; subst e2
      have e3 : L = cur := by rw [hcur] at hnl0; exact (Option.some.inj hnl0).symm
      subst e3
      exact Or.inr ⟨next, by rw [hT]; simp, hnext, hmem⟩
    · have hcond0 : some name = some n → a ∈ done := by
        intro h1
        have h2 := hcond h1
        simp only [Option.some.injEq] at h1
        rcases List.mem_append.1 h2 with h3 | h3
        · exact h3
        · simp only [List.mem_singleton] at h3
          exact absurd ⟨h1, h3.symm⟩ he
      have hlk : lookupT st1.dfa.Transitions n a = lookupT st.dfa.Transitions n a := by
        rw [hT]; simp only [he, if_false]
      rcases hi.transOK n L hnl0 hn0 a ha hcond0 with ⟨t1, t2⟩ | ⟨L1, t1, t2, t3⟩
      · exact Or.inl ⟨t1, by rw [hlk]; exact t2⟩
      · exact Or.inr ⟨L1, by rw [hlk]; exact t1, hmono _ _ t2, t3⟩
  · intro n a l hl
    rw [hT] at hl
    by_cases he : name = n ∧ sym = a
    · obtain ⟨e1, e2⟩ := he
      subst e1; subst e2
      exact ⟨ne_none_of_eq_some (hmono _ _ hcur), hnameq, fun _ => by simp⟩
    · simp only [he, if_false] at hl
      obtain ⟨w1, w2, w3⟩ := hi.written n a l hl
      refine ⟨?_, hkeep n w1 w2, fun h1 => List.mem_append_left _ (w3 h1)⟩
      cases hg : mapGet st.stateMap n with
      | none => exact absurd hg w1
      | some v => exact ne_none_of_eq_some (hmono _ _ hg)
  · intro n L hnl hn
    rw [hF]
    exact hi.finalOK n L (hold n L hnl hn) (fun h1 => hn (hqsub n h1))
  · intro n hn
    rw [hF] at hn
    obtain ⟨f1, f2⟩ := hi.finalKeys n hn
    refine ⟨?_, hkeep n f1 f2⟩
    cases hg : mapGet st.stateMap n with
    | none => exact absurd hg f1
    | some v => exact ne_none_of_eq_some (hmono _ _ hg)
  · obtain ⟨L0, i1, i2⟩ := hi.init
    exact ⟨L0, by rw [hI]; exact hmono _ _ i1, i2⟩

/-- One pass of the alphabet loop keeps the invariant. -/
theorem runInv_step (afn : Automaton) (h : NoEpsilon afn) (hcf : CommaFree afn)
    (ord : Nat → List String → List String) (ho : ∀ k, KeyOrder (ord k)) (cfuel : Nat)
    (name sym : String) (cur done : List String) (st st1 : ConvState)
    (hi : RunInv afn st (some name) done) (hcur : mapGet st.stateMap name = some cur)
    (hs : symbolStep afn ord cfuel name cur sym st = some st1) :
    RunInv afn st1 (some name) (done ++ [sym]) ∧ mapGet st1.stateMap name = some cur := by
  obtain ⟨next, hc, hcase⟩ := symbolStep_cases _ _ _ _ _ _ _ _ hs
  obtain ⟨hnd, hmem⟩ := epsilonClosure_noEpsilon afn h _ (ho _) cfuel _ next hc
  have hused : ∀ x ∈ next, x ∈ usedStates afn := fun x hx =>
    List.mem_cons_of_mem _ (getTransitions_subset afn sym cur x ((hmem x).1 hx))
  rcases hcase with ⟨hnil, rfl⟩ | ⟨hne, ⟨L2, hL2⟩, rfl⟩ | ⟨hne, hnone, rfl⟩
  · refine ⟨⟨hi.mapOK, hi.nonempty, hi.queueNodup, hi.queueKeys, hi.curOK, ?_, ?_,
      hi.finalOK, hi.finalKeys, hi.init⟩, hcur⟩
    · intro n L hnl hn a ha hcond
      by_cases hd : some name = some n → a ∈ done
      · exact hi.transOK n L hnl hn a ha hd
      · have hnn : some name = some n := by
          by_contra h1; exact hd (fun h2 => absurd h2 h1)
        have ha2 : a ∉ done := fun h1 => hd (fun _ => h1)
        have hsa : a = sym := by
          rcases List.mem_append.1 (hcond hnn) with h3 | h3
          · exact absurd h3 ha2
          · simpa using h3
        simp only [Option.some.injEq] at hnn
        subst hnn; subst hsa
        have e3 : L = cur := by
          have : mapGet st.stateMap name = some L := hnl
          rw [hcur] at this; exact (Option.some.inj this).symm
        subst e3
        left
        constructor
        · apply List.eq_nil_iff_forall_not_mem.2
          intro x hx
          have := (hmem x).2 hx
          rw [hnil] at this; simp at this
        · cases hl : lookupT st.dfa.Transitions name a with
          | none => rfl
          | some l => exact absurd ((hi.written name a l hl).2.2 rfl) ha2
    · intro n a l hl
      obtain ⟨w1, w2, w3⟩ := hi.written n a l hl
      exact ⟨w1, w2, fun h1 => List.mem_append_left _ (w3 h1)⟩
  · obtain ⟨m1, m2, m3⟩ := hi.mapOK.2 _ L2 hL2
    have e : next = L2 := join_injective next L2 hne (hi.nonempty _ L2 hL2)
      (fun x hx => hcf x (hused x hx)) (fun x hx => hcf x (m2 x hx)) m3
    subst e
    refine ⟨runInv_update afn st _ name sym cur done next hi hcur hmem hi.mapOK hi.nonempty
      (fun _ _ hh => hh) hL2 (fun _ _ hh _ => hh) hi.queueNodup hi.queueKeys
      (fun _ hh => hh) (fun _ h1 h2 => absurd h1 h2) ?_ rfl rfl, hcur⟩
    intro n a
    exact lookupT_setT _ _ _ _ _ _
  · have hne_name : ∀ k v, mapGet st.stateMap k = some v → ¬ join next = k := by
      intro k v hk he
      rw [← he, hnone] at hk; simp at hk
    have hmono : ∀ k v, mapGet st.stateMap k = some v →
        mapGet (mapSet st.stateMap (join next) next) k = some v := by
      intro k v hk
      rw [mapGet_mapSet]
      simp only [hne_name k v hk, if_false]
      exact hk
    have hjq : join next ∉ st.queue := fun h1 => hi.queueKeys _ h1 hnone
    refine ⟨runInv_update afn st _ name sym cur done next hi hcur hmem ⟨?_, ?_⟩ ?_ hmono
      (by simp [mapGet_mapSet]) ?_ ?_ ?_ (fun _ hh => List.mem_append_left _ hh) ?_ ?_
      rfl rfl, hmono _ _ hcur⟩
    · simp only [keys_mapSet_new _ _ _ hnone]
      rw [List.nodup_append]
      refine ⟨hi.mapOK.1, List.nodup_singleton _, ?_⟩
      intro x hx hx2
      simp only [List.mem_singleton] at hx2
      exact (mapGet_none_iff _ _).1 hnone (hx2 ▸ hx)
    · intro n L hnl
      simp only [mapGet_mapSet] at hnl
      by_cases he : join next = n
      · simp only [he, if_true, Option.some.injEq] at hnl
        subst hnl
        exact ⟨hnd, hused, he.symm⟩
      · simp only [he, if_false] at hnl
        exact hi.mapOK.2 n L hnl
    · intro n L hnl
      simp only [mapGet_mapSet] at hnl
      by_cases he : join next = n
      · simp only [he, if_true, Option.some.injEq] at hnl
        subst hnl
        exact hne
      · simp only [he, if_false] at hnl
        exact hi.nonempty n L hnl
    · intro k v hk hkq
      simp only [mapGet_mapSet] at hk
      by_cases he : join next = k
      · exact absurd (by simp [he]) hkq
      · simp only [he, if_false] at hk
        exact hk
    · show (st.queue ++ [join next]).Nodup
      rw [List.nodup_append]
      refine ⟨hi.queueNodup, List.nodup_singleton _, ?_⟩
      intro x hx hx2
      simp only [List.mem_singleton] at hx2
      exact hjq (hx2 ▸ hx)
    · intro n hn
      have hn2 : n ∈ st.queue ++ [join next] := hn
      simp only [mapGet_mapSet]
      by_cases he : join next = n
      · simp [he]
      · simp only [he, if_false]
        rcases List.mem_append.1 hn2 with h1 | h1
        · exact hi.queueKeys n h1
        · simp only [List.mem_singleton] at h1
          exact absurd h1.symm he
    · intro n hn hn0
      have hn2 : n ∈ st.queue ++ [join next] := hn
      rcases List.mem_append.1 hn2 with h1 | h1
      · exact absurd h1 hn0
      · simp only [List.mem_singleton] at h1
        rw [h1]; exact hnone
    · intro n a
      exact lookupT_setT _ _ _ _ _ _


/-! ## Bytes and runes of the input -/

theorem toNat_ofNat_small (b : Nat) (h : b < 256) : (Char.ofNat b).toNat = b := by
  have hv : b.isValidChar := Or.inl (by omega)
  unfold Char.ofNat
  simp only [hv, dif_pos]
  simp [Char.ofNatAux, Char.toNat, UInt32.toNat]

theorem utf8Bytes_ascii (c : Char) (h : c.toNat < 128) :
    utf8Bytes c = [c.toNat] ∧ byteString c.toNat = String.singleton c := by
  constructor
  · simp [utf8Bytes, h]
  · simp [byteString]

theorem char_toNat_lt (c : Char) : c.toNat < 1114112 := by
  have := c.valid
  unfold Char.toNat
  rcases this with h | ⟨_, h⟩
  · have : c.val.toNat < 55296 := h
    omega
  · exact h

theorem utf8Bytes_nonascii (c : Char) (h : ¬ c.toNat < 128) :
    ∃ b rest, utf8Bytes c = b :: rest ∧ 128 ≤ b ∧ b < 256 := by
  have hlt := char_toNat_lt c
  unfold utf8Bytes
  simp only [h, if_false]
  by_cases h1 : c.toNat < 0x800
  · simp only [h1, if_true]
    exact ⟨_, _, rfl, by omega, by omega⟩
  · simp only [h1, if_false]
    by_cases h2 : c.toNat < 0x10000
    · simp only [h2, if_true]
      exact ⟨_, _, rfl, by omega, by omega⟩
    · simp only [h2, if_false]
      exact ⟨_, _, rfl, by omega, by omega⟩

theorem isAsciiSymbol_byteString (b : Nat) (h1 : 128 ≤ b) (h2 : b < 256) :
    isAsciiSymbol (byteString b) = false := by
  simp [isAsciiSymbol, byteString, toNat_ofNat_small b h2]
  omega

theorem isAsciiSymbol_singleton (c : Char) :
    isAsciiSymbol (String.singleton c) = decide (c.toNat < 128) := by
  simp [isAsciiSymbol]


/-! ## Language of the converted automaton -/

theorem convertRun_runInv (afn : Automaton) (h : NoEpsilon afn) (hcf : CommaFree afn)
    (ord : Nat → List String → List String) (ho : ∀ k, KeyOrder (ord k)) (fuel : Nat)
    (r : ConvState) (hr : convertRun afn ord fuel = some r) :
    RunInv afn r none [] ∧ r.queue = [] := by
  apply convertRun_invariant afn ord fuel (fun st => RunInv afn st none []) _ _ r hr
  · intro L0 h0
    exact runInv_init afn h (ord 0) (ho 0) fuel L0 h0
  · intro st name queue st1 hq hi hs
    obtain ⟨cur, hcur, hpop⟩ := runInv_pop afn st name queue hq hi
    rw [hcur] at hs
    simp only [dests] at hs
    have key := symbolLoop_invariant afn ord fuel name cur afn.Alphabet
      (fun done s => RunInv afn s (some name) done ∧ mapGet s.stateMap name = some cur)
      (fun done sym s s1 _ hp hstep =>
        runInv_step afn h hcf ord ho fuel name sym cur done s s1 hp.1 hp.2 hstep)
      afn.Alphabet [] (popState afn st name queue) st1 (fun _ hx => hx) hs ⟨hpop, hcur⟩
    simp only [List.nil_append] at key
    exact runInv_finish afn st1 name key.1

theorem anyDest_eq_any (f : String → Option Bool) (g : String → Bool) (l : List String)
    (h : ∀ x ∈ l, f x = some (g x)) : anyDest f l = some (l.any g) := by
  induction l with
  | nil => simp [anyDest]
  | cons x xs ih =>
    have hx := h x (List.mem_cons_self _ _)
    have ih2 := ih (fun y hy => h y (List.mem_cons_of_mem _ hy))
    cases hg : g x with
    | true => simp [anyDest, hx, hg]
    | false => simp [anyDest, hx, hg, ih2]

theorem any_congr_mem (f : String → Bool) (l1 l2 : List String)
    (h : ∀ x, x ∈ l1 ↔ x ∈ l2) : l1.any f = l2.any f := by
  rw [Bool.eq_iff_iff]
  simp only [List.any_eq_true]
  constructor
  · rintro ⟨x, hx, hf⟩; exact ⟨x, (h x).1 hx, hf⟩
  · rintro ⟨x, hx, hf⟩; exact ⟨x, (h x).2 hx, hf⟩

theorem any_getTransitions (afn : Automaton) (sym : String) (f : String → Bool) :
    ∀ L : List String,
      (getTransitions afn L sym).any f =
        L.any (fun q => (dests (lookupT afn.Transitions q sym)).any f) := by
  intro L
  induction L with
  | nil => simp [getTransitions]
  | cons q rest ih => simp [getTransitions, List.any_append, ih]

/-- Without epsilon moves the backtracking search returns, within a recursion budget
above the number of input bytes, the reference verdict. -/
theorem acceptStringRecursive_noEpsilon (afn : Automaton) (h : NoEpsilon afn) :
    ∀ (fuel : Nat) (q : String) (bs : List Nat), bs.length < fuel →
      acceptStringRecursive afn fuel q bs = some (nfaAccepts afn q (bs.map byteString)) := by
  intro fuel
  induction fuel with
  | zero => intro q bs hb; omega
  | succ n ih =>
    intro q bs hb
    cases bs with
    | nil => simp [acceptStringRecursive, nfaAccepts, isFinalState]
    | cons b rest =>
      have hrest : rest.length < n := by simp only [List.length_cons] at hb; omega
      rw [acceptStringRecursive]
      rw [anyDest_eq_any _ (fun q1 => nfaAccepts afn q1 (rest.map byteString)) _
        (fun x _ => ih x rest hrest)]
      simp only [lookupT_lda_none afn h q, List.map_cons, nfaAccepts]
      generalize (dests (lookupT afn.Transitions q (byteString b))).any
        (fun q1 => nfaAccepts afn q1 (rest.map byteString)) = v
      cases v <;> simp [dests, anyDest]

theorem lookupT_nonascii (afn : Automaton) (h : SymbolsOK afn) (q sym : String)
    (hs : isAsciiSymbol sym = false) : lookupT afn.Transitions q sym = none := by
  cases hl : lookupT afn.Transitions q sym with
  | none => rfl
  | some l =>
    obtain ⟨inner, h1, h2⟩ := lookupT_mem _ _ _ _ hl
    have := (h _ h1 _ h2).1
    simp only [hs] at this
    exact absurd this (by simp)

theorem lookupT_not_alphabet (afn : Automaton) (h : SymbolsOK afn) (q sym : String)
    (hs : sym ∉ afn.Alphabet) : lookupT afn.Transitions q sym = none := by
  cases hl : lookupT afn.Transitions q sym with
  | none => rfl
  | some l =>
    obtain ⟨inner, h1, h2⟩ := lookupT_mem _ _ _ _ hl
    exact absurd (h _ h1 _ h2).2 hs

/-- With single-ASCII-character transition symbols, reading the bytes of the input one
by one gives the verdict of reading its characters one by one. -/
theorem nfaAccepts_bytes (afn : Automaton) (h : SymbolsOK afn) :
    ∀ (cs : List Char) (q : String),
      nfaAccepts afn q ((cs.flatMap utf8Bytes).map byteString) =
        nfaAccepts afn q (cs.map String.singleton) := by
  intro cs
  induction cs with
  | nil => intro q; simp
  | cons c rest ih =>
    intro q
    by_cases hc : c.toNat < 128
    · obtain ⟨e1, e2⟩ := utf8Bytes_ascii c hc
      simp only [List.flatMap_cons, e1, List.singleton_append, List.map_cons, e2, nfaAccepts]
      congr 1
      funext q1
      exact ih q1
    · obtain ⟨b, more, e1, e2, e3⟩ := utf8Bytes_nonascii c hc
      have l1 := lookupT_nonascii afn h q (byteString b) (isAsciiSymbol_byteString b e2 e3)
      have l2 := lookupT_nonascii afn h q (String.singleton c)
        (by rw [isAsciiSymbol_singleton]; simp [hc])
      simp only [List.flatMap_cons, e1, List.cons_append, List.map_cons, nfaAccepts, l1, l2,
        dests, List.any_nil]

/-- In the state that a run returns, the deterministic walk from a registered name gives
the reference verdict of its set. -/
theorem acceptsAFDLoop_run (afn : Automaton) (hs : SymbolsOK afn) (r : ConvState)
    (hi : RunInv afn r none []) (hq : r.queue = [])
    (hent : ∀ e ∈ r.dfa.Transitions, ∀ e2 ∈ e.2, e2.2.length = 1 ∧ e2.1 ∈ afn.Alphabet) :
    ∀ (cs : List Char) (n : String) (L : List String), mapGet r.stateMap n = some L →
      acceptsAFDLoop r.dfa n cs =
        some (L.any (fun q => nfaAccepts afn q (cs.map String.singleton))) := by
  intro cs
  induction cs with
  | nil =>
    intro n L hnl
    simp only [acceptsAFDLoop, List.map_nil, nfaAccepts, Option.some.injEq]
    rw [Bool.eq_iff_iff, contains_iff, hi.finalOK n L hnl (by rw [hq]; simp)]
    simp only [List.any_eq_true, contains_iff]
    constructor
    · rintro ⟨f, h1, h2⟩; exact ⟨f, h2, h1⟩
    · rintro ⟨f, h1, h2⟩; exact ⟨f, h2, h1⟩
  | cons c rest ih =>
    intro n L hnl
    rw [acceptsAFDLoop]
    simp only [List.map_cons, nfaAccepts]
    by_cases ha : String.singleton c ∈ afn.Alphabet
    · rcases hi.transOK n L hnl (by rw [hq]; simp) _ ha (fun h => by simp at h) with
        ⟨t1, t2⟩ | ⟨L1, t1, t2, t3⟩
      · rw [t2]
        simp only [Option.some.injEq]
        rw [← any_getTransitions, t1]
        simp
      · rw [t1]
        simp only
        rw [ih (join L1) L1 t2, ← any_getTransitions]
        simp only [Option.some.injEq]
        exact any_congr_mem _ _ _ t3
    · have l1 : lookupT r.dfa.Transitions n (String.singleton c) = none := by
        cases hl : lookupT r.dfa.Transitions n (String.singleton c) with
        | none => rfl
        | some l =>
          obtain ⟨inner, h1, h2⟩ := lookupT_mem _ _ _ _ hl
          exact absurd (hent _ h1 _ h2).2 ha
      rw [l1]
      simp only [Option.some.injEq]
      symm
      rw [List.any_eq_false]
      intro q _
      rw [lookupT_not_alphabet afn hs q _ ha]
      simp [dests]


/-- C10: for an automaton without `lda` transitions, whose state identifiers contain no
comma and whose transition symbols are single ASCII characters of its alphabet, and
whatever the key orders of the map walks: `ConvertToDFA` returns from some fuel on, and
on every input string (made of alphabet symbols or not) `acceptsAFD` on the result
returns the verdict that `acceptsAFND` returns on the source, at every recursion budget
above the byte length of the input. -/
theorem ConvertToDFA_same_verdict (afn : Automaton)
    (ord : Nat → List String → List String) (ho : ∀ k, KeyOrder (ord k))
    (h1 : NoEpsilon afn) (h2 : CommaFree afn) (h3 : SymbolsOK afn) :
    ∃ n, ∀ fuel, n ≤ fuel →
      ∃ d, ConvertToDFA afn ord fuel = some d ∧
        ∀ s : String, ∃ b, acceptsAFD d s = some b ∧
          ∀ f, (goBytes s).length < f → acceptsAFND afn f s = some b := by
  refine ⟨enoughFuel afn, fun fuel hf => ?_⟩
  obtain ⟨r, hr⟩ := convertRun_total afn ord ho fuel hf
  obtain ⟨hi, hq⟩ := convertRun_runInv afn h1 h2 ord ho fuel r hr
  have hent := convertRun_entries afn ord fuel r hr
  refine ⟨r.dfa, by simp [ConvertToDFA, hr], fun s => ?_⟩
  obtain ⟨L0, i1, i2⟩ := hi.init
  refine ⟨nfaAccepts afn afn.InitialState (s.data.map String.singleton), ?_, ?_⟩
  · unfold acceptsAFD
    rw [acceptsAFDLoop_run afn h3 r hi hq hent s.data _ L0 i1]
    rw [any_congr_mem _ L0 [afn.InitialState] (fun x => by rw [i2]; simp)]
    simp
  · intro f hf2
    unfold acceptsAFND
    rw [acceptStringRecursive_noEpsilon afn h1 f _ _ hf2]
    unfold goBytes
    rw [nfaAccepts_bytes afn h3]

theorem nfaA_noEpsilon : NoEpsilon nfaA := by
  unfold NoEpsilon nfaA; decide

theorem nfaA_commaFree : CommaFree nfaA := by
  unfold CommaFree usedStates allDests nfaA; decide

theorem nfaA_symbolsOK : SymbolsOK nfaA := by
  unfold SymbolsOK nfaA; decide

theorem ConvertToDFA_same_verdict_witness :
    (∀ k, KeyOrder (reverseOrder k)) ∧ NoEpsilon nfaA ∧ CommaFree nfaA ∧ SymbolsOK nfaA ∧
    ∃ n, ∀ fuel, n ≤ fuel →
      ∃ d, ConvertToDFA nfaA reverseOrder fuel = some d ∧
        ∀ s : String, ∃ b, acceptsAFD d s = some b ∧
          ∀ f, (goBytes s).length < f → acceptsAFND nfaA f s = some b :=
  ⟨reverseOrder_keyOrder, nfaA_noEpsilon, nfaA_commaFree, nfaA_symbolsOK,
    ConvertToDFA_same_verdict nfaA reverseOrder reverseOrder_keyOrder nfaA_noEpsilon
      nfaA_commaFree nfaA_symbolsOK⟩


/-! ## Uniqueness of generated names -/

theorem symbolStep_mapOK (afn : Automaton) (ord : Nat → List String → List String)
    (ho : ∀ k, KeyOrder (ord k)) (cfuel : Nat) (name sym : String) (cur : List String)
    (st st1 : ConvState)
    (hm : MapOK afn st ∧ ∀ n L, mapGet st.stateMap n = some L → L ≠ [])
    (hs : symbolStep afn ord cfuel name cur sym st = some st1) :
    MapOK afn st1 ∧ ∀ n L, mapGet st1.stateMap n = some L → L ≠ [] := by
  obtain ⟨next, hc, hcase⟩ := symbolStep_cases _ _ _ _ _ _ _ _ hs
  obtain ⟨hn, _, _, _⟩ := epsilonClosure_spec afn _ (ho _) cfuel _ next hc
  have hsub := (epsilonClosure_length afn _ (ho _) cfuel _ next hc).2
  have hu : ∀ x ∈ next, x ∈ usedStates afn := by
    intro x hx
    rcases hsub x hx with h | h
    · exact List.mem_cons_of_mem _ (getTransitions_subset afn sym cur x h)
    · exact List.mem_cons_of_mem _ h
  rcases hcase with ⟨_, rfl⟩ | ⟨_, _, rfl⟩ | ⟨hne, hnone, rfl⟩
  · exact hm
  · exact hm
  · refine ⟨⟨?_, ?_⟩, ?_⟩
    · simp only [keys_mapSet_new _ _ _ hnone]
      rw [List.nodup_append]
      refine ⟨hm.1.1, List.nodup_singleton _, ?_⟩
      intro x hx hx2
      simp only [List.mem_singleton] at hx2
      exact (mapGet_none_iff _ _).1 hnone (hx2 ▸ hx)
    · intro n L hnl
      simp only [mapGet_mapSet] at hnl
      by_cases he : join next = n
      · simp only [he, if_true, Option.some.injEq] at hnl
        subst hnl
        exact ⟨hn, hu, he.symm⟩
      · simp only [he, if_false] at hnl
        exact hm.1.2 n L hnl
    · intro n L hnl
      simp only [mapGet_mapSet] at hnl
      by_cases he : join next = n
      · simp only [he, if_true, Option.some.injEq] at hnl
        subst hnl
        exact hne
      · simp only [he, if_false] at hnl
        exact hm.2 n L hnl

/-- The state map of a run holds, under distinct names, non-empty duplicate-free lists
of used states, each under its own join. -/
theorem convertRun_mapOK (afn : Automaton) (ord : Nat → List String → List String)
    (ho : ∀ k, KeyOrder (ord k)) (fuel : Nat) (r : ConvState)
    (hr : convertRun afn ord fuel = some r) :
    MapOK afn r ∧ ∀ n L, mapGet r.stateMap n = some L → L ≠ [] := by
  refine (convertRun_invariant afn ord fuel
    (fun st => MapOK afn st ∧ ∀ n L, mapGet st.stateMap n = some L → L ≠ []) ?_ ?_ r hr).1
  · intro L0 h0
    refine ⟨initState_mapOK afn _ (ho 0) fuel L0 h0, ?_⟩
    intro n L hnl hL
    obtain ⟨_, hin, _, _⟩ := epsilonClosure_spec afn _ (ho 0) fuel _ L0 h0
    simp only [initState, mapGet] at hnl
    by_cases he : join L0 = n
    · simp only [he, if_true, Option.some.injEq] at hnl
      have := hin afn.InitialState (by simp)
      rw [hnl, hL] at this
      simp at this
    · simp [he] at hnl
  · intro st name queue st1 _ hp hs
    exact symbolLoop_invariant afn ord fuel name (dests (mapGet st.stateMap name))
      afn.Alphabet
      (fun _ s => MapOK afn s ∧ ∀ n L, mapGet s.stateMap n = some L → L ≠ [])
      (fun _ sym s s1 _ hP hstep =>
        symbolStep_mapOK afn ord ho fuel name sym _ s s1 hP hstep)
      afn.Alphabet [] (popState afn st name queue) st1 (fun _ hx => hx) hs hp

/-- When no state identifier of the automaton contains a comma, a generated name
stands for one StateSet only: two non-empty results of `epsilonClosure` on lists of used
states that are joined into the same name are the same list, and in the state map of a
finished run a lookup of the name of such a result that hits returns that very result. -/
theorem generated_names_unique (afn : Automaton) (hcf : CommaFree afn)
    (order1 order2 : List String → List String) (h1 : KeyOrder order1) (h2 : KeyOrder order2)
    (f1 f2 : Nat) (S T c1 c2 : List String)
    (hS : ∀ x ∈ S, x ∈ usedStates afn) (hT : ∀ x ∈ T, x ∈ usedStates afn)
    (e1 : epsilonClosure afn order1 f1 S = some c1) (n1 : c1 ≠ [])
    (e2 : epsilonClosure afn order2 f2 T = some c2) (n2 : c2 ≠ []) :
    (join c1 = join c2 → c1 = c2) ∧
    ∀ (ord : Nat → List String → List String) (fuel : Nat) (r : ConvState) (L : List String),
      (∀ k, KeyOrder (ord k)) → convertRun afn ord fuel = some r →
      mapGet r.stateMap (join c1) = some L → L = c1 := by
  have used : ∀ (o : List String → List String) (f : Nat) (X c : List String), KeyOrder o →
      (∀ x ∈ X, x ∈ usedStates afn) → epsilonClosure afn o f X = some c →
      ∀ x ∈ c, ',' ∉ x.data := by
    intro o f X c ho hX hc x hx
    apply hcf
    rcases (epsilonClosure_length afn o ho f X c hc).2 x hx with h | h
    · exact hX x h
    · exact List.mem_cons_of_mem _ h
  have u1 := used order1 f1 S c1 h1 hS e1
  have u2 := used order2 f2 T c2 h2 hT e2
  refine ⟨fun hj => join_injective c1 c2 n1 n2 u1 u2 hj, ?_⟩
  intro ord fuel r L ho hr hL
  obtain ⟨hm, hne⟩ := convertRun_mapOK afn ord ho fuel r hr
  obtain ⟨_, m2, m3⟩ := hm.2 _ L hL
  exact (join_injective c1 L n1 (hne _ L hL) u1 (fun x hx => hcf x (m2 x hx)) m3).symm

/-- C9: on `nfaComma`, an automaton valid by the data model whose identifiers contain
commas, the sets `{a,a,a}` and `{a, a,a}` reached from `q0` have different members and
are joined into the same name under either key order.  The state map lookup takes the
second for the first: the run registers one state for both, the converted automaton has
no final state and rejects the input `y`, which `acceptsAFND` accepts on the source. -/
theorem names_collide_with_commas :
    WellFormed nfaComma ∧
    epsilonClosure nfaComma (insertionOrder 1) 5 (getTransitions nfaComma ["q0"] "x")
      = some ["a,a,a"] ∧
    epsilonClosure nfaComma (insertionOrder 2) 5 (getTransitions nfaComma ["q0"] "y")
      = some ["a", "a,a"] ∧
    epsilonClosure nfaComma (reverseOrder 2) 5 (getTransitions nfaComma ["q0"] "y")
      = some ["a,a", "a"] ∧
    "a" ∉ ["a,a,a"] ∧
    join ["a", "a,a"] = join ["a,a,a"] ∧ join ["a,a", "a"] = join ["a,a,a"] ∧
    (ConvertToDFA nfaComma insertionOrder 10).map (fun d => (d.States, d.FinalStates))
      = some (["q0", "a,a,a"], []) ∧
    (ConvertToDFA nfaComma reverseOrder 10).map (fun d => (d.States, d.FinalStates))
      = some (["q0", "a,a,a"], []) ∧
    (ConvertToDFA nfaComma insertionOrder 10).map (fun d => acceptsAFD d "y")
      = some (some false) ∧
    (ConvertToDFA nfaComma reverseOrder 10).map (fun d => acceptsAFD d "y")
      = some (some false) ∧
    acceptsAFND nfaComma 5 "y" = some true := by
  refine ⟨?_, by decide⟩
  unfold WellFormed UniqueKeys nfaComma; decide

/-- C8: under a map walk in insertion order, the lists `[q1, q2]` and `[q2, q1]` have
the same members and `epsilonClosure` joins them into the two names `q1,q2` and
`q2,q1`; the run on `nfaSwap` registers both names for the one set. -/
theorem names_differ_for_one_set :
    WellFormed nfaSwap ∧
    (∀ x, x ∈ ["q1", "q2"] ↔ x ∈ ["q2", "q1"]) ∧
    (epsilonClosure nfaSwap (insertionOrder 0) 5 ["q1", "q2"]).map join = some "q1,q2" ∧
    (epsilonClosure nfaSwap (insertionOrder 0) 5 ["q2", "q1"]).map join = some "q2,q1" ∧
    (ConvertToDFA nfaSwap insertionOrder 10).map (fun d => d.States)
      = some ["q0", "q1,q2", "q2,q1"] := by
  refine ⟨?_, ?_, by decide, by decide, by decide⟩
  · unfold WellFormed UniqueKeys nfaSwap; decide
  · intro x; simp only [List.mem_cons, List.not_mem_nil, or_false]; tauto

/-- C1: on the automaton `nfaEps` (valid by the data model, epsilon transition
`q0 --lda--> q1`, `q1` final) and the empty input, the two verdicts differ: under either
key order `ConvertToDFA` returns an automaton on which `acceptsAFD` answers `true`, and
`acceptsAFND` on the source answers `false`. -/
theorem verdicts_differ_on_epsilon :
    WellFormed nfaEps ∧
    (ConvertToDFA nfaEps insertionOrder 5).map (fun d => acceptsAFD d "") = some (some true) ∧
    (ConvertToDFA nfaEps reverseOrder 5).map (fun d => acceptsAFD d "") = some (some true) ∧
    acceptsAFND nfaEps 5 "" = some false := by
  refine ⟨?_, by decide, by decide, by decide⟩
  unfold WellFormed UniqueKeys nfaEps; decide


/-! ## Totality of the deterministic walk -/

end Acme
